import Mathlib

/-!
Verification of the PlayWise multi-index track store (risv1/playwise).

Shallow embedding of the core data structures and algorithms:
`models/song.py`, `core/playback_history.py`, `core/playlist_sorter.py`,
`core/song_rating_tree.py`, `core/auto_cleaner.py`,
`core/favorites_queue.py`, `core/song_lookup.py`.

Python machine integers are modelled as `Int`; Python strings as `String`
(`str.lower` as `String.toLower`, `str.strip` as `String.trim`); Python
lists as `List`; Python dicts (insertion ordered) as association lists.
Operations that mutate `self` are modelled by explicit state passing;
operations that can raise an exception return `Option`.
-/

set_option maxHeartbeats 1000000

/-- `models/song.py` - `Song.__init__` fields.  `date_added` (a Python
`datetime`) is modelled as an integer timestamp.  Python `Song.__eq__`
compares by `id`; in this embedding the record equality is full structural
equality and id-based comparisons from the source are written out
explicitly where the source uses `==`/`in` on songs. -/
structure Song where
  id : String
  title : String
  artist : String
  duration : Int
  rating : Int
  dateAdded : Int
  listenTime : Int
  playCount : Int
  deriving Repr, DecidableEq

/-! ## Playback history (`core/playback_history.py`) -/

namespace PlaybackHistory

/-- `PlaybackHistory.__init__`: the bounded history list and its capacity. -/
structure State where
  history : List Song
  maxSize : Nat
  deriving Repr, DecidableEq

/-- `PlaybackHistory.add_to_history`: drop the oldest entry when at
capacity, then append.  `none` models the `IndexError` that
`self.history.pop(0)` raises on an empty list (only possible when
`max_size = 0`).  The side effect `song.increment_play_count()` mutates the
shared `Song` object, not this structure, and is not modelled here. -/
def add_to_history (st : State) (song : Song) : Option State :=
  if st.history.length ≥ st.maxSize then
    match st.history with
    | [] => none
    | _ :: rest => some { st with history := rest ++ [song] }
  else
    some { st with history := st.history ++ [song] }

/-- `PlaybackHistory.get_recent_history`: `k <= 0` yields `[]`, otherwise
`list(reversed(self.history[-k:]))`.  The Python slice `history[-k:]` for
`k >= 1` keeps the last `min k (length history)` elements, i.e. drops
`length - k` from the front (saturating). -/
def get_recent_history (st : State) (k : Int) : List Song :=
  if k ≤ 0 then []
  else ((st.history.drop (st.history.length - k.toNat)).reverse)

/-- `PlaybackHistory.undo_last_play`: pop the most recent entry. -/
def undo_last_play (st : State) : Option Song × State :=
  match st.history.getLast? with
  | some s => (some s, { st with history := st.history.dropLast })
  | none => (none, st)

end PlaybackHistory

namespace PlaybackHistory

theorem reverse_drop_eq_take_reverse (l : List Song) (n : Nat) :
    (l.drop n).reverse = l.reverse.take (l.length - n) := by
  induction l generalizing n with
  | nil => simp
  | cons a t ih =>
    cases n with
    | zero => simp
    | succ m =>
      simp only [List.drop_succ_cons, List.reverse_cons, List.length_cons]
      rw [ih m]
      have hlen : t.length + 1 - (m + 1) = t.length - m := by omega
      rw [hlen]
      rcases Nat.le_total (t.length - m) t.length with h | h
      · rw [List.take_append_of_le_length (by simp [h])]
      · have : t.length - m = t.length := by omega
        rw [this]
        rw [List.take_append_of_le_length (by simp)]

/-- The k most recent entries, most-recent-first: what the spec asks of
`recentHistory(k)`, phrased directly on the reversed history. -/
theorem get_recent_history_eq_take_reverse (st : State) (k : Int) (hk : 0 < k) :
    get_recent_history st k = st.history.reverse.take k.toNat := by
  unfold get_recent_history
  rw [if_neg (by omega)]
  rw [reverse_drop_eq_take_reverse]
  rcases Nat.le_total k.toNat st.history.length with h | h
  · have : st.history.length - (st.history.length - k.toNat) = k.toNat := by omega
    rw [this]
  · have h1 : st.history.length - k.toNat = 0 := by omega
    rw [h1]
    simp only [Nat.sub_zero]
    rw [List.take_of_length_le (by simp), List.take_of_length_le (by simp [h])]

section C6

/-- Concrete plays for the spec scenario. -/
def P1 : Song := ⟨"p1", "T1", "A1", 100, 0, 1, 0, 0⟩
def P2 : Song := ⟨"p2", "T2", "A2", 100, 0, 2, 0, 0⟩
def P3 : Song := ⟨"p3", "T3", "A3", 100, 0, 3, 0, 0⟩
def P4 : Song := ⟨"p4", "T4", "A4", 100, 0, 4, 0, 0⟩

/-- The history state after recording P1,P2,P3,P4 on a capacity-3 stack. -/
def historyScenario : Option State :=
  (((add_to_history ⟨[], 3⟩ P1).bind (add_to_history · P2)).bind
      (add_to_history · P3)).bind (add_to_history · P4)

/-- C6: For a recency stack of capacity 3, recording plays P1,P2,P3,P4 in
order evicts P1 and `recentHistory(3)` returns [P4,P3,P2]; in general
`recentHistory(k)` returns the k most recent entries most-recent-first, and
any k ≤ 0 yields the empty list. -/
theorem recent_history_spec :
    (∃ st : State, historyScenario = some st ∧
      get_recent_history st 3 = [P4, P3, P2] ∧ P1 ∉ st.history) ∧
    (∀ (st : State) (k : Int), k ≤ 0 → get_recent_history st k = []) ∧
    (∀ (st : State) (k : Int), 0 < k →
      get_recent_history st k = st.history.reverse.take k.toNat) := by
  refine ⟨⟨⟨[P2, P3, P4], 3⟩, by decide, by decide, by decide⟩, ?_, ?_⟩
  · intro st k hk
    unfold get_recent_history
    rw [if_pos hk]
  · intro st k hk
    exact get_recent_history_eq_take_reverse st k hk

/-- Witness for `recent_history_spec`: its quantified parts applied at a
concrete history and k. -/
theorem recent_history_spec_witness :
    get_recent_history ⟨[P1, P2], 5⟩ (-1) = [] ∧
    get_recent_history ⟨[P1, P2], 5⟩ 1 = [P2] := by
  constructor
  · exact recent_history_spec.2.1 ⟨[P1, P2], 5⟩ (-1) (by decide)
  · rw [recent_history_spec.2.2 ⟨[P1, P2], 5⟩ 1 (by decide)]
    decide

end C6

end PlaybackHistory

/-! ## Sort engine (`core/playlist_sorter.py`)

`PlaylistSorter._sort_with_algorithm` copies the input, sorts it ascending
by a key function with the chosen algorithm, and reverses the result when
`reverse=True`.  The key functions (`song.title.lower()`, `song.duration`,
...) all land in a linearly ordered type, so the engine is embedded
generically over a key `key : Song → K` with `[LinearOrder K]`.  The
timing statistics (`last_sort_time`, `sort_stats`) are pure bookkeeping and
are not modelled. -/

namespace PlaylistSorter

variable {K : Type} [LinearOrder K]

/-- `PlaylistSorter._merge`: merge two sorted lists, taking from the left
list on ties (`key_func(left[i]) <= key_func(right[j])`). -/
def m_merge (key : Song → K) : List Song → List Song → List Song
  | [], right => right
  | a :: l, [] => a :: l
  | a :: l, b :: r =>
    if key a ≤ key b then a :: m_merge key l (b :: r)
    else b :: m_merge key (a :: l) r
termination_by l r => l.length + r.length

/-- `PlaylistSorter._merge_sort`: split at `len // 2`, sort halves, merge. -/
def m_merge_sort (key : Song → K) (songs : List Song) : List Song :=
  if h : songs.length ≤ 1 then songs
  else
    let mid := songs.length / 2
    m_merge key (m_merge_sort key (songs.take mid)) (m_merge_sort key (songs.drop mid))
termination_by songs.length
decreasing_by
  · simp only [List.length_take]
    omega
  · simp only [List.length_drop]
    omega

theorem length_filter_lt_of_not {p : Song → Bool} {l : List Song} {x : Song}
    (hx : x ∈ l) (hpx : p x = false) : (l.filter p).length < l.length := by
  induction l with
  | nil => cases hx
  | cons a t ih =>
    rcases List.mem_cons.mp hx with rfl | hxt
    · rw [List.filter_cons, hpx]
      simp only [Bool.false_eq_true, if_false, List.length_cons]
      have := t.length_filter_le p
      omega
    · rw [List.filter_cons]
      by_cases hpa : p a = true
      · rw [if_pos hpa]
        have := ih hxt
        simp only [List.length_cons]
        omega
      · rw [if_neg hpa]
        have := ih hxt
        simp only [List.length_cons]
        omega

/-- `PlaylistSorter._quick_sort`: pivot at the middle element, three-way
partition by list comprehensions, recurse on the strict sides. -/
def m_quick_sort (key : Song → K) (songs : List Song) : List Song :=
  if h : songs.length ≤ 1 then songs
  else
    let pivot := songs.get ⟨songs.length / 2, by omega⟩
    let pk := key pivot
    m_quick_sort key (songs.filter (fun x => key x < pk)) ++
      songs.filter (fun x => key x = pk) ++
      m_quick_sort key (songs.filter (fun x => pk < key x))
termination_by songs.length
decreasing_by
  · exact length_filter_lt_of_not
      (songs.get_mem (songs.length / 2) (by omega)) (by simp)
  · exact length_filter_lt_of_not
      (songs.get_mem (songs.length / 2) (by omega)) (by simp)

/-- Modelled from the spec: Python's builtin `sorted(songs_copy,
key=key_func)` (Timsort) is not part of this repository; the spec
describes it as the platform's stable sort.  Any stable sort is
extensionally unique (`stable_sort_unique` below), so it is modelled by
stable insertion: insert before the first element whose key is ≥. -/
def s_insert (key : Song → K) (x : Song) : List Song → List Song
  | [] => [x]
  | y :: t => if key x ≤ key y then x :: y :: t else y :: s_insert key x t

/-- Modelled from the spec: the platform-default stable sort
(`sorted(..., key=key_func)`), as stable insertion sort. -/
def builtin_sorted (key : Song → K) (songs : List Song) : List Song :=
  songs.foldr (s_insert key) []

/-- `PlaylistSorter._sort_with_algorithm` (pure part): dispatch on the
algorithm string — any string other than "merge" and "quick" falls through
to the builtin branch — then reverse when `reverse` is set. -/
def sort_with_algorithm (key : Song → K) (reverse : Bool) (algorithm : String)
    (songs : List Song) : List Song :=
  let result :=
    if algorithm = "merge" then m_merge_sort key songs
    else if algorithm = "quick" then m_quick_sort key songs
    else builtin_sorted key songs
  if reverse then result.reverse else result

/-- Ascending sortedness by a key (non-strict). -/
def SortedByKey (key : Song → K) (l : List Song) : Prop :=
  l.Pairwise (fun a b => key a ≤ key b)

/-- Descending sortedness by a key (non-strict). -/
def DescSortedByKey (key : Song → K) (l : List Song) : Prop :=
  l.Pairwise (fun a b => key b ≤ key a)

/-- Strict descending sortedness (pairwise distinct keys, descending). -/
def StrictDescSortedByKey (key : Song → K) (l : List Song) : Prop :=
  l.Pairwise (fun a b => key b < key a)

/-- `l` is a stable ascending sort of `xs`: sorted, and for every key
value the equal-key subsequence is exactly that of `xs`. -/
def IsStableSortOf (key : Song → K) (xs l : List Song) : Prop :=
  SortedByKey key l ∧
    ∀ k : K, l.filter (fun a => key a = k) = xs.filter (fun a => key a = k)

instance (key : Song → K) (l : List Song) : Decidable (SortedByKey key l) :=
  inferInstanceAs (Decidable (l.Pairwise _))

instance (key : Song → K) (l : List Song) : Decidable (DescSortedByKey key l) :=
  inferInstanceAs (Decidable (l.Pairwise _))

instance (key : Song → K) (l : List Song) : Decidable (StrictDescSortedByKey key l) :=
  inferInstanceAs (Decidable (l.Pairwise _))

theorem mem_m_merge (key : Song → K) (l r : List Song) (a : Song) :
    a ∈ m_merge key l r ↔ a ∈ l ∨ a ∈ r := by
  match l, r with
  | [], r => simp [m_merge]
  | b :: l, [] => simp [m_merge]
  | b :: l, c :: r =>
    rw [m_merge]
    by_cases h : key b ≤ key c
    · rw [if_pos h]
      simp only [List.mem_cons, mem_m_merge key l (c :: r) a, List.mem_cons]
      tauto
    · rw [if_neg h]
      simp only [List.mem_cons, mem_m_merge key (b :: l) r a, List.mem_cons]
      tauto
termination_by l.length + r.length

theorem sorted_m_merge (key : Song → K) (l r : List Song)
    (hl : SortedByKey key l) (hr : SortedByKey key r) :
    SortedByKey key (m_merge key l r) := by
  match l, r with
  | [], r => rw [m_merge]; exact hr
  | b :: l, [] => rw [m_merge]; exact hl
  | b :: l, c :: r =>
    rw [m_merge]
    rcases (List.pairwise_cons.mp hl) with ⟨hbl, hl'⟩
    rcases (List.pairwise_cons.mp hr) with ⟨hcr, hr'⟩
    by_cases h : key b ≤ key c
    · rw [if_pos h]
      refine List.pairwise_cons.mpr ⟨?_, sorted_m_merge key l (c :: r) hl' hr⟩
      intro y hy
      rcases (mem_m_merge key l (c :: r) y).mp hy with hyl | hyr
      · exact hbl y hyl
      · rcases List.mem_cons.mp hyr with rfl | hyr'
        · exact h
        · exact le_trans h (hcr y hyr')
    · rw [if_neg h]
      have hcb : key c ≤ key b := le_of_lt (lt_of_not_le h)
      refine List.pairwise_cons.mpr ⟨?_, sorted_m_merge key (b :: l) r hl hr'⟩
      intro y hy
      rcases (mem_m_merge key (b :: l) r y).mp hy with hyl | hyr
      · rcases List.mem_cons.mp hyl with rfl | hyl'
        · exact hcb
        · exact le_trans hcb (hbl y hyl')
      · exact hcr y hyr
termination_by l.length + r.length

theorem filter_eq_nil_of_gt (key : Song → K) (k : K) (l : List Song)
    (h : ∀ y ∈ l, k < key y) : l.filter (fun a => key a = k) = [] := by
  rw [List.filter_eq_nil_iff]
  intro a ha
  have := h a ha
  simp only [decide_eq_true_eq]
  intro heq
  exact absurd heq (by rw [heq] at this; exact absurd this (lt_irrefl k))

theorem filter_m_merge (key : Song → K) (k : K) (l r : List Song)
    (hl : SortedByKey key l) (hr : SortedByKey key r) :
    (m_merge key l r).filter (fun a => key a = k) =
      l.filter (fun a => key a = k) ++ r.filter (fun a => key a = k) := by
  match l, r with
  | [], r => rw [m_merge]; simp
  | b :: l, [] => rw [m_merge]; simp
  | b :: l, c :: r =>
    rw [m_merge]
    rcases (List.pairwise_cons.mp hl) with ⟨hbl, hl'⟩
    rcases (List.pairwise_cons.mp hr) with ⟨hcr, hr'⟩
    by_cases h : key b ≤ key c
    · rw [if_pos h]
      have ih := filter_m_merge key k l (c :: r) hl' hr
      by_cases hbk : key b = k
      · simp [List.filter_cons, hbk, ih]
      · simp [List.filter_cons, hbk, ih]
    · rw [if_neg h]
      have hcb : key c < key b := lt_of_not_le h
      have ih := filter_m_merge key k (b :: l) r hl hr'
      by_cases hck : key c = k
      · have hbk : ¬ key b = k := by
          intro hbk
          rw [← hck] at hbk
          rw [hbk] at hcb
          exact absurd hcb (lt_irrefl _)
        have hnil : l.filter (fun a => key a = k) = [] := by
          apply filter_eq_nil_of_gt
          intro y hy
          rw [← hck]
          exact lt_of_lt_of_le hcb (hbl y hy)
        simp [List.filter_cons, hck, hbk, hnil] at ih ⊢
        simp [ih]
      · simp [List.filter_cons, hck] at ih ⊢
        simp [ih]
termination_by l.length + r.length

theorem trivial_stable_of_le_one (key : Song → K) (xs : List Song)
    (h : xs.length ≤ 1) : IsStableSortOf key xs xs := by
  constructor
  · match xs with
    | [] => exact List.Pairwise.nil
    | [a] => exact List.pairwise_singleton _ a
    | a :: b :: t => simp at h
  · intro k
    rfl

theorem m_merge_sort_stable (key : Song → K) (xs : List Song) :
    IsStableSortOf key xs (m_merge_sort key xs) := by
  rw [m_merge_sort]
  by_cases h : xs.length ≤ 1
  · rw [dif_pos h]
    exact trivial_stable_of_le_one key xs h
  · rw [dif_neg h]
    have h2 : 2 ≤ xs.length := by omega
    have htl : (xs.take (xs.length / 2)).length < xs.length := by
      simp only [List.length_take]
      omega
    have hdl : (xs.drop (xs.length / 2)).length < xs.length := by
      simp only [List.length_drop]
      omega
    have ih1 := m_merge_sort_stable key (xs.take (xs.length / 2))
    have ih2 := m_merge_sort_stable key (xs.drop (xs.length / 2))
    constructor
    · exact sorted_m_merge key _ _ ih1.1 ih2.1
    · intro k
      rw [filter_m_merge key k _ _ ih1.1 ih2.1, ih1.2 k, ih2.2 k]
      rw [← List.filter_append]
      rw [List.take_append_drop]
termination_by xs.length

theorem filter_s_insert (key : Song → K) (k : K) (x : Song) (l : List Song) :
    (s_insert key x l).filter (fun a => key a = k) =
      (x :: l).filter (fun a => key a = k) := by
  induction l with
  | nil => rfl
  | cons y t ih =>
    rw [s_insert]
    by_cases h : key x ≤ key y
    · rw [if_pos h]
    · rw [if_neg h]
      by_cases hyk : key y = k
      · by_cases hxk : key x = k
        · exact absurd (le_of_eq (hxk.trans hyk.symm)) h
        · simp [List.filter_cons, hyk, hxk, ih]
      · by_cases hxk : key x = k <;> simp [List.filter_cons, hyk, hxk, ih]

theorem sorted_s_insert (key : Song → K) (x : Song) (l : List Song)
    (hl : SortedByKey key l) : SortedByKey key (s_insert key x l) := by
  induction l with
  | nil => exact List.pairwise_singleton _ x
  | cons y t ih =>
    rcases (List.pairwise_cons.mp hl) with ⟨hyt, ht⟩
    rw [s_insert]
    by_cases h : key x ≤ key y
    · rw [if_pos h]
      refine List.pairwise_cons.mpr ⟨?_, hl⟩
      intro z hz
      rcases List.mem_cons.mp hz with rfl | hzt
      · exact h
      · exact le_trans h (hyt z hzt)
    · rw [if_neg h]
      have hyx : key y ≤ key x := le_of_lt (lt_of_not_le h)
      refine List.pairwise_cons.mpr ⟨?_, ih ht⟩
      intro z hz
      have hmem : z ∈ s_insert key x t := hz
      have : z = x ∨ z ∈ t := by
        have hfz := filter_s_insert key (key z) x t
        have hzf : z ∈ (s_insert key x t).filter (fun a => key a = key z) :=
          List.mem_filter.mpr ⟨hmem, by simp⟩
        rw [hfz] at hzf
        have := List.mem_filter.mp hzf
        exact List.mem_cons.mp this.1
      rcases this with rfl | hzt
      · exact hyx
      · exact hyt z hzt

theorem builtin_sorted_stable (key : Song → K) (xs : List Song) :
    IsStableSortOf key xs (builtin_sorted key xs) := by
  induction xs with
  | nil => exact ⟨List.Pairwise.nil, fun k => rfl⟩
  | cons x t ih =>
    constructor
    · exact sorted_s_insert key x _ ih.1
    · intro k
      show (s_insert key x (builtin_sorted key t)).filter _ = _
      rw [filter_s_insert key k x (builtin_sorted key t)]
      by_cases hxk : key x = k <;> simp [List.filter_cons, hxk, ih.2 k]

theorem sorted_filter_ext (key : Song → K) (l₁ l₂ : List Song)
    (h₁ : SortedByKey key l₁) (h₂ : SortedByKey key l₂)
    (hf : ∀ k : K, l₁.filter (fun a => key a = k) = l₂.filter (fun a => key a = k)) :
    l₁ = l₂ := by
  induction l₁ generalizing l₂ with
  | nil =>
    match l₂ with
    | [] => rfl
    | b :: t₂ =>
      have hb := hf (key b)
      simp [List.filter_cons] at hb
  | cons a t₁ ih =>
    match l₂ with
    | [] =>
      have ha := hf (key a)
      simp [List.filter_cons] at ha
    | b :: t₂ =>
      rcases (List.pairwise_cons.mp h₁) with ⟨hat, ht₁⟩
      rcases (List.pairwise_cons.mp h₂) with ⟨hbt, ht₂⟩
      have hab : key a = key b := by
        have hfa := hf (key a)
        have hfb := hf (key b)
        have hmem_a : a ∈ (b :: t₂).filter (fun x => key x = key a) := by
          rw [← hfa]
          exact List.mem_filter.mpr ⟨List.mem_cons_self a t₁, by simp⟩
        have hmem_b : b ∈ (a :: t₁).filter (fun x => key x = key b) := by
          rw [hfb]
          exact List.mem_filter.mpr ⟨List.mem_cons_self b t₂, by simp⟩
        have ha2 := List.mem_filter.mp hmem_a
        have hb2 := List.mem_filter.mp hmem_b
        have hka : key b ≤ key a := by
          rcases List.mem_cons.mp ha2.1 with rfl | hmem
          · exact le_refl _
          · have := hbt a hmem
            have hkey : key a = key a := rfl
            have : key b ≤ key a := this
            exact this
        have hkb : key a ≤ key b := by
          rcases List.mem_cons.mp hb2.1 with rfl | hmem
          · exact le_refl _
          · exact hat b hmem
        exact le_antisymm hkb hka
      have hf_a := hf (key a)
      rw [List.filter_cons, List.filter_cons] at hf_a
      rw [if_pos (by simp)] at hf_a
      rw [if_pos (by simp [hab.symm])] at hf_a
      injection hf_a with hhead htail
      subst hhead
      have : t₁ = t₂ := by
        apply ih t₂ ht₁ ht₂
        intro k
        by_cases hk : key a = k
        · subst hk
          exact htail
        · have := hf k
          rw [List.filter_cons, List.filter_cons] at this
          simp only [decide_eq_true_eq] at this
          rw [if_neg hk, if_neg hk] at this
          exact this
      rw [this]

/-- Any two stable ascending sorts of the same input agree. -/
theorem stable_sort_unique (key : Song → K) (xs l₁ l₂ : List Song)
    (h₁ : IsStableSortOf key xs l₁) (h₂ : IsStableSortOf key xs l₂) : l₁ = l₂ :=
  sorted_filter_ext key l₁ l₂ h₁.1 h₂.1 (fun k => (h₁.2 k).trans (h₂.2 k).symm)

theorem mem_of_stable (key : Song → K) (xs l : List Song)
    (h : IsStableSortOf key xs l) (y : Song) : y ∈ l ↔ y ∈ xs := by
  have hf := h.2 (key y)
  constructor <;> intro hm
  · have hy : y ∈ l.filter (fun a => key a = key y) :=
      List.mem_filter.mpr ⟨hm, by simp⟩
    rw [hf] at hy
    exact (List.mem_filter.mp hy).1
  · have hy : y ∈ xs.filter (fun a => key a = key y) :=
      List.mem_filter.mpr ⟨hm, by simp⟩
    rw [← hf] at hy
    exact (List.mem_filter.mp hy).1

theorem m_quick_sort_stable (key : Song → K) (xs : List Song) :
    IsStableSortOf key xs (m_quick_sort key xs) := by
  rw [m_quick_sort]
  by_cases h : xs.length ≤ 1
  · rw [dif_pos h]
    exact trivial_stable_of_le_one key xs h
  · rw [dif_neg h]
    have hpm : xs.get ⟨xs.length / 2, by omega⟩ ∈ xs := xs.get_mem _ _
    set pk := key (xs.get ⟨xs.length / 2, by omega⟩) with hpk
    have hlt1 : (xs.filter (fun x => key x < pk)).length < xs.length :=
      length_filter_lt_of_not hpm (by simp [hpk])
    have hlt2 : (xs.filter (fun x => pk < key x)).length < xs.length :=
      length_filter_lt_of_not hpm (by simp [hpk])
    have ih1 := m_quick_sort_stable key (xs.filter (fun x => key x < pk))
    have ih3 := m_quick_sort_stable key (xs.filter (fun x => pk < key x))
    have memA : ∀ y ∈ m_quick_sort key (xs.filter (fun x => key x < pk)), key y < pk := by
      intro y hy
      have := (mem_of_stable key _ _ ih1 y).mp hy
      have := List.mem_filter.mp this
      simpa using this.2
    have memC : ∀ y ∈ m_quick_sort key (xs.filter (fun x => pk < key x)), pk < key y := by
      intro y hy
      have := (mem_of_stable key _ _ ih3 y).mp hy
      have := List.mem_filter.mp this
      simpa using this.2
    have memM : ∀ y ∈ xs.filter (fun x => key x = pk), key y = pk := by
      intro y hy
      have := List.mem_filter.mp hy
      simpa using this.2
    constructor
    · apply List.pairwise_append.mpr
      refine ⟨?_, ih3.1, ?_⟩
      · apply List.pairwise_append.mpr
        refine ⟨ih1.1, ?_, ?_⟩
        · apply List.pairwise_of_forall_mem_list
          intro a ha b hb
          rw [memM a ha, memM b hb]
        · intro a ha b hb
          exact le_of_lt (lt_of_lt_of_le (memA a ha) (le_of_eq (memM b hb).symm))
      · intro a ha b hb
        rcases List.mem_append.mp ha with ha' | ha'
        · exact le_of_lt (lt_trans (memA a ha') (memC b hb))
        · exact le_of_lt (lt_of_le_of_lt (le_of_eq (memM a ha')) (memC b hb))
    · intro k
      rw [List.filter_append, List.filter_append, ih1.2 k, ih3.2 k]
      rw [List.filter_filter, List.filter_filter, List.filter_filter]
      rcases lt_trichotomy k pk with hk | hk | hk
      · have e1 : xs.filter (fun a => decide (key a = k) && decide (key a < pk)) =
            xs.filter (fun a => key a = k) := by
          apply List.filter_congr
          intro x _
          by_cases hx : key x = k
          · simp [hx, hk]
          · simp [hx]
        have e2 : xs.filter (fun a => decide (key a = k) && decide (key a = pk)) = [] := by
          rw [List.filter_eq_nil_iff]
          intro x _
          simp only [Bool.and_eq_true, decide_eq_true_eq, not_and]
          intro h1 h2
          rw [h1] at h2
          rw [h2] at hk
          exact absurd hk (lt_irrefl _)
        have e3 : xs.filter (fun a => decide (key a = k) && decide (pk < key a)) = [] := by
          rw [List.filter_eq_nil_iff]
          intro x _
          simp only [Bool.and_eq_true, decide_eq_true_eq, not_and]
          intro h1 h2
          rw [h1] at h2
          exact absurd h2 (not_lt.mpr (le_of_lt hk))
        rw [e1, e2, e3]
        simp
      · have e1 : xs.filter (fun a => decide (key a = k) && decide (key a < pk)) = [] := by
          rw [List.filter_eq_nil_iff]
          intro x _
          simp only [Bool.and_eq_true, decide_eq_true_eq, not_and]
          intro h1 h2
          rw [h1, hk] at h2
          exact absurd h2 (lt_irrefl _)
        have e2 : xs.filter (fun a => decide (key a = k) && decide (key a = pk)) =
            xs.filter (fun a => key a = k) := by
          apply List.filter_congr
          intro x _
          by_cases hx : key x = k
          · simp [hx, ← hk]
          · simp [hx]
        have e3 : xs.filter (fun a => decide (key a = k) && decide (pk < key a)) = [] := by
          rw [List.filter_eq_nil_iff]
          intro x _
          simp only [Bool.and_eq_true, decide_eq_true_eq, not_and]
          intro h1 h2
          rw [h1, hk] at h2
          exact absurd h2 (lt_irrefl _)
        rw [e1, e2, e3]
        simp
      · have e1 : xs.filter (fun a => decide (key a = k) && decide (key a < pk)) = [] := by
          rw [List.filter_eq_nil_iff]
          intro x _
          simp only [Bool.and_eq_true, decide_eq_true_eq, not_and]
          intro h1 h2
          rw [h1] at h2
          exact absurd h2 (not_lt.mpr (le_of_lt hk))
        have e2 : xs.filter (fun a => decide (key a = k) && decide (key a = pk)) = [] := by
          rw [List.filter_eq_nil_iff]
          intro x _
          simp only [Bool.and_eq_true, decide_eq_true_eq, not_and]
          intro h1 h2
          rw [h1] at h2
          rw [h2] at hk
          exact absurd hk (lt_irrefl _)
        have e3 : xs.filter (fun a => decide (key a = k) && decide (pk < key a)) =
            xs.filter (fun a => key a = k) := by
          apply List.filter_congr
          intro x _
          by_cases hx : key x = k
          · simp [hx, hk]
          · simp [hx]
        rw [e1, e2, e3]
        simp
termination_by xs.length

/-- Every algorithm branch of `_sort_with_algorithm` with `reverse=False`
is a stable ascending sort (the quick-sort branch included: its three-way
list-comprehension partition preserves relative order). -/
theorem sort_with_algorithm_stable (key : Song → K) (alg : String) (xs : List Song) :
    IsStableSortOf key xs (sort_with_algorithm key false alg xs) := by
  unfold sort_with_algorithm
  simp only [Bool.false_eq_true, if_false]
  by_cases h1 : alg = "merge"
  · rw [if_pos h1]
    exact m_merge_sort_stable key xs
  · rw [if_neg h1]
    by_cases h2 : alg = "quick"
    · rw [if_pos h2]
      exact m_quick_sort_stable key xs
    · rw [if_neg h2]
      exact builtin_sorted_stable key xs

theorem filter_length_le_one_of_strict_desc (key : Song → K) (k : K)
    (xs : List Song) (h : StrictDescSortedByKey key xs) :
    (xs.filter (fun a => key a = k)).length ≤ 1 := by
  induction xs with
  | nil => simp
  | cons a t ih =>
    rcases (List.pairwise_cons.mp h) with ⟨hat, ht⟩
    rw [List.filter_cons]
    by_cases hak : key a = k
    · rw [if_pos (by simp [hak])]
      have : t.filter (fun x => key x = k) = [] := by
        rw [List.filter_eq_nil_iff]
        intro x hx
        simp only [decide_eq_true_eq]
        intro hxk
        have := hat x hx
        rw [hxk, hak] at this
        exact absurd this (lt_irrefl _)
      rw [this]
      simp
    · rw [if_neg (by simp [hak])]
      exact ih ht

/-- A strictly-descending list's reverse is its unique stable ascending
sort. -/
theorem reverse_stable_of_strict_desc (key : Song → K) (xs : List Song)
    (h : StrictDescSortedByKey key xs) : IsStableSortOf key xs xs.reverse := by
  constructor
  · apply List.pairwise_reverse.mpr
    exact List.Pairwise.imp (fun hab => le_of_lt hab) h
  · intro k
    rw [List.filter_reverse]
    have hle := filter_length_le_one_of_strict_desc key k xs h
    match hm : xs.filter (fun a => key a = k), hle with
    | [], _ => rfl
    | [a], _ => rfl
    | a :: b :: t, hle2 => simp at hle2

section C1C9

/-- Two distinct tracks with the same duration (the sort key below). -/
def cexA : Song := ⟨"a", "t", "x", 100, 0, 0, 0, 0⟩

/-- Second track for the C1 counterexample. -/
def cexB : Song := ⟨"b", "t", "y", 100, 0, 0, 0, 0⟩

/-- C1 counterexample: `[cexA, cexB]` is already sorted descending by
duration (the keys are equal), but a descending sort returns
`[cexB, cexA]` — the implementation sorts ascending (stably) and then
reverses, flipping equal-key blocks.  Hence sorting an already-sorted
sequence by the same key and direction is not the identity, and the
descending sort is not idempotent, for every algorithm branch. -/
theorem sort_desc_counterexample :
    DescSortedByKey (fun s : Song => s.duration) [cexA, cexB] ∧
    sort_with_algorithm (fun s : Song => s.duration) true "builtin" [cexA, cexB] ≠
      [cexA, cexB] ∧
    sort_with_algorithm (fun s : Song => s.duration) true "builtin"
        (sort_with_algorithm (fun s : Song => s.duration) true "builtin" [cexA, cexB]) ≠
      sort_with_algorithm (fun s : Song => s.duration) true "builtin" [cexA, cexB] := by
  refine ⟨?_, ?_, ?_⟩ <;> decide

/-- C1 (amended): for every key, every algorithm and every track list,
(i) an ascending sort of an already-ascending-sorted sequence is the
identity; (ii) a descending sort of an already-descending-sorted sequence
is the identity provided no two elements share a key; (iii) ascending
sorts are idempotent; (iv) every algorithm branch is stable in ascending
mode (equal-key relative order is preserved, so repeated ascending sorts
preserve it too).  The unrestricted claim fails for the descending
direction with equal keys (`sort_desc_counterexample`). -/
theorem sort_idempotent_amended :
    ∀ (K : Type) [inst : LinearOrder K] (key : Song → K) (alg : String)
      (xs : List Song),
      (SortedByKey key xs → sort_with_algorithm key false alg xs = xs) ∧
      (StrictDescSortedByKey key xs → sort_with_algorithm key true alg xs = xs) ∧
      (sort_with_algorithm key false alg (sort_with_algorithm key false alg xs) =
        sort_with_algorithm key false alg xs) ∧
      (∀ k : K, (sort_with_algorithm key false alg xs).filter (fun a => key a = k) =
        xs.filter (fun a => key a = k)) := by
  intro K inst key alg xs
  have hstable := sort_with_algorithm_stable key alg xs
  have hid : ∀ ys : List Song, SortedByKey key ys →
      sort_with_algorithm key false alg ys = ys := by
    intro ys hys
    exact stable_sort_unique key ys _ ys (sort_with_algorithm_stable key alg ys)
      ⟨hys, fun k => rfl⟩
  refine ⟨hid xs, ?_, ?_, ?_⟩
  · intro hdesc
    have hasc : sort_with_algorithm key false alg xs = xs.reverse :=
      stable_sort_unique key xs _ _ (sort_with_algorithm_stable key alg xs)
        (reverse_stable_of_strict_desc key xs hdesc)
    have hrev : sort_with_algorithm key true alg xs =
        (sort_with_algorithm key false alg xs).reverse := by
      unfold sort_with_algorithm
      simp
    rw [hrev, hasc, List.reverse_reverse]
  · exact hid _ hstable.1
  · exact hstable.2

/-- Witness for `sort_idempotent_amended`: at duration key, builtin
branch, a concrete ascending-sorted list with an equal-key pair — the
ascending sort leaves it unchanged. -/
theorem sort_idempotent_amended_witness :
    sort_with_algorithm (fun s : Song => s.duration) false "builtin" [cexA, cexB] =
      [cexA, cexB] :=
  (sort_idempotent_amended Int (fun s : Song => s.duration) "builtin"
    [cexA, cexB]).1 (by decide)

/-- C9: the custom merge sort agrees with the (spec-modelled) platform
stable sort on every input and key: both are stable ascending sorts, and
stable sorts are extensionally unique. -/
theorem merge_sort_eq_builtin_sort :
    ∀ (K : Type) [inst : LinearOrder K] (key : Song → K) (xs : List Song),
      m_merge_sort key xs = builtin_sorted key xs := by
  intro K inst key xs
  exact stable_sort_unique key xs _ _ (m_merge_sort_stable key xs)
    (builtin_sorted_stable key xs)

end C1C9

end PlaylistSorter

/-! ## Song rating tree (`core/song_rating_tree.py`)

A binary search tree keyed by integer rating where each node stores the
list of songs carrying that rating.  Python's `Optional[RatingNode]` is
the `leaf` constructor.  Mutating methods are modelled as functions
returning the new tree / state together with the source's boolean result.
Python's `song in node.songs` membership test uses `Song.__eq__`, which
compares by `id`. -/

namespace SongRatingTree

inductive RNode where
  | leaf : RNode
  | node (rating : Int) (songs : List Song) (left : RNode) (right : RNode) : RNode
  deriving Repr, DecidableEq

/-- `SongRatingTree.__init__`: root and the `total_songs` counter. -/
structure State where
  root : RNode
  total_songs : Int
  deriving Repr, DecidableEq

/-- The empty tree created by `SongRatingTree()`. -/
def initState : State := ⟨RNode.leaf, 0⟩

/-- `max(0, min(5, rating))` as used throughout the source. -/
def clampRating (r : Int) : Int := max 0 (min 5 r)

/-- `SongRatingTree._insert_recursive` (and the fresh-node case of
`insert_song`): returns (inserted?, new subtree); the caller accounts for
the `total_songs` increment signalled by the boolean. -/
def insertRec : RNode → Song → Int → Bool × RNode
  | RNode.leaf, song, rating =>
      (true, RNode.node rating [song] RNode.leaf RNode.leaf)
  | RNode.node nr songs l r, song, rating =>
    if rating = nr then
      if songs.any (fun s => s.id = song.id) then (false, RNode.node nr songs l r)
      else (true, RNode.node nr (songs ++ [song]) l r)
    else if rating < nr then
      if l = RNode.leaf then
        (true, RNode.node nr songs (RNode.node rating [song] RNode.leaf RNode.leaf) r)
      else
        let p := insertRec l song rating
        (p.1, RNode.node nr songs p.2 r)
    else
      if r = RNode.leaf then
        (true, RNode.node nr songs l (RNode.node rating [song] RNode.leaf RNode.leaf))
      else
        let p := insertRec r song rating
        (p.1, RNode.node nr songs l p.2)

/-- `SongRatingTree.insert_song`: clamp the target rating, special-case an
empty root, otherwise recurse; bump `total_songs` on success. -/
def insert_song (st : State) (song : Song) (rating? : Option Int) : Bool × State :=
  let target := clampRating (rating?.getD song.rating)
  match st.root with
  | RNode.leaf =>
      (true, ⟨RNode.node target [song] RNode.leaf RNode.leaf, st.total_songs + 1⟩)
  | RNode.node nr songs l r =>
      let p := insertRec (RNode.node nr songs l r) song target
      (p.1, ⟨p.2, st.total_songs + (if p.1 then 1 else 0)⟩)

/-- `node.songs.pop(i)` at the first index whose song id matches:
`none` when no entry matches. -/
def removeFirstById : List Song → String → Option (List Song)
  | [], _ => none
  | s :: t, i =>
      if s.id = i then some t
      else (removeFirstById t i).map (fun t2 => s :: t2)

/-- `SongRatingTree._delete_song_recursive`: check the current node's
list first, then the left subtree, then the right subtree; remove the
first match found. -/
def deleteRec : RNode → String → Bool × RNode
  | RNode.leaf, _ => (false, RNode.leaf)
  | RNode.node nr songs l r, i =>
    match removeFirstById songs i with
    | some songs2 => (true, RNode.node nr songs2 l r)
    | none =>
      let pl := deleteRec l i
      if pl.1 then (true, RNode.node nr songs pl.2 r)
      else
        let pr := deleteRec r i
        (pr.1, RNode.node nr songs l pr.2)

/-- `SongRatingTree.delete_song`: delegate to the recursive helper and
account for the `total_songs` decrement on success. -/
def delete_song (st : State) (i : String) : Bool × State :=
  let p := deleteRec st.root i
  (p.1, ⟨p.2, st.total_songs - (if p.1 then 1 else 0)⟩)

/-- `SongRatingTree._find_node`. -/
def findNode : RNode → Int → Option RNode
  | RNode.leaf, _ => none
  | RNode.node nr songs l r, rating =>
    if nr = rating then some (RNode.node nr songs l r)
    else if rating < nr then findNode l rating
    else findNode r rating

/-- `node.songs.copy() if node else []`. -/
def nodeSongs : Option RNode → List Song
  | some (RNode.node _ songs _ _) => songs
  | _ => []

/-- `SongRatingTree.search_by_rating`: clamp, find the node, return its
song list. -/
def search_by_rating (st : State) (rating : Int) : List Song :=
  nodeSongs (findNode st.root (clampRating rating))

/-- `SongRatingTree._range_search` (result accumulation order: current
node's songs, then left subtree, then right subtree). -/
def rangeSearch : RNode → Int → Int → List Song
  | RNode.leaf, _, _ => []
  | RNode.node nr songs l r, lo, hi =>
    (if lo ≤ nr ∧ nr ≤ hi then songs else []) ++
      (if lo < nr then rangeSearch l lo hi else []) ++
      (if hi > nr then rangeSearch r lo hi else [])

/-- `SongRatingTree.get_songs_by_rating_range`: clamp both ends, swap if
reversed, then range-search from the root. -/
def get_songs_by_rating_range (st : State) (minRating maxRating : Int) : List Song :=
  let minC := clampRating minRating
  let maxC := clampRating maxRating
  if minC > maxC then rangeSearch st.root maxC minC
  else rangeSearch st.root minC maxC

/-- The Python slice `result[:limit]` for an arbitrary integer `limit`
(negative stop counts from the end). -/
def pySlice (l : List Song) (n : Int) : List Song :=
  if 0 ≤ n then l.take n.toNat else l.take ((l.length : Int) + n).toNat

/-- The `for rating in range(5, -1, -1)` loop of `get_top_rated_songs`,
with its early `break` once `len(result) >= limit`. -/
def topRatedLoop (st : State) (limit : Int) : List Int → List Song → List Song
  | [], acc => acc
  | r :: rs, acc =>
    let acc2 := acc ++ search_by_rating st r
    if limit ≤ (acc2.length : Int) then acc2 else topRatedLoop st limit rs acc2

/-- `SongRatingTree.get_top_rated_songs`: scan ratings 5 down to 0 with an
early break, then truncate with `result[:limit]`. -/
def get_top_rated_songs (st : State) (limit : Int) : List Song :=
  pySlice (topRatedLoop st limit [5, 4, 3, 2, 1, 0] []) limit

/-- `SongRatingTree.get_song_count`. -/
def get_song_count (st : State) : Int := st.total_songs

/-- Sum over all tree nodes of the number of songs stored in that node. -/
def treeSize : RNode → Int
  | RNode.leaf => 0
  | RNode.node _ songs l r => (songs.length : Int) + treeSize l + treeSize r

/-- No song with the given id appears anywhere in the tree. -/
def idFree : RNode → String → Prop
  | RNode.leaf, _ => True
  | RNode.node _ songs l r, i =>
    (∀ s ∈ songs, s.id ≠ i) ∧ idFree l i ∧ idFree r i

instance : ∀ (n : RNode) (i : String), Decidable (idFree n i)
  | RNode.leaf, _ => isTrue trivial
  | RNode.node _ songs l r, i =>
    have : Decidable (idFree l i) := instDecidableIdFree l i
    have : Decidable (idFree r i) := instDecidableIdFree r i
    inferInstanceAs (Decidable (_ ∧ _ ∧ _))

/-- The songs stored at the node with the given rating (empty when no
such node exists): `search_by_rating` without the clamp. -/
def songsAt (n : RNode) (r : Int) : List Song := nodeSongs (findNode n r)

/-- The operations of claim C10: `insert_song` and `delete_song` calls. -/
inductive TreeOp where
  | ins (song : Song) (rating : Option Int) : TreeOp
  | del (id : String) : TreeOp
  deriving Repr

/-- Apply one operation, discarding the boolean result. -/
def applyOp (st : State) : TreeOp → State
  | TreeOp.ins song rating => (insert_song st song rating).2
  | TreeOp.del i => (delete_song st i).2

/-- Apply a sequence of operations starting from the given state. -/
def applyOps (st : State) (ops : List TreeOp) : State :=
  ops.foldl applyOp st

end SongRatingTree

namespace SongRatingTree

theorem insertRec_size (song : Song) (rating : Int) : ∀ (n : RNode),
    treeSize (insertRec n song rating).2 =
      treeSize n + (if (insertRec n song rating).1 then 1 else 0) := by
  intro n
  induction n with
  | leaf => simp [insertRec, treeSize]
  | node nr songs l r ihl ihr =>
    simp only [insertRec]
    by_cases h1 : rating = nr
    · rw [if_pos h1]
      by_cases h2 : songs.any (fun s => s.id = song.id)
      · rw [if_pos h2]
        simp [treeSize]
      · rw [if_neg h2]
        simp [treeSize]
        omega
    · rw [if_neg h1]
      by_cases h3 : rating < nr
      · rw [if_pos h3]
        by_cases hl : l = RNode.leaf
        · rw [if_pos hl]
          subst hl
          simp [treeSize]
          omega
        · rw [if_neg hl]
          simp only [treeSize]
          rw [ihl]
          cases hb : (insertRec l song rating).1 <;> simp [hb, treeSize] <;> omega
      · rw [if_neg h3]
        by_cases hr : r = RNode.leaf
        · rw [if_pos hr]
          subst hr
          simp [treeSize]
          try omega
        · rw [if_neg hr]
          simp only [treeSize]
          rw [ihr]
          cases hb : (insertRec r song rating).1 <;> simp [hb, treeSize] <;> omega

theorem removeFirstById_length : ∀ (l : List Song) (i : String) (l2 : List Song),
    removeFirstById l i = some l2 → (l2.length : Int) = (l.length : Int) - 1 := by
  intro l i
  induction l with
  | nil => intro l2 h; simp [removeFirstById] at h
  | cons s t ih =>
    intro l2 h
    rw [removeFirstById] at h
    by_cases hs : s.id = i
    · rw [if_pos hs] at h
      injection h with h
      subst h
      simp only [List.length_cons]
      push_cast
      omega
    · rw [if_neg hs] at h
      match ht : removeFirstById t i with
      | none => rw [ht] at h; simp at h
      | some t2 =>
        rw [ht] at h
        simp at h
        subst h
        have := ih t2 ht
        simp only [List.length_cons]
        push_cast
        omega

theorem deleteRec_size (i : String) : ∀ (n : RNode),
    treeSize (deleteRec n i).2 =
      treeSize n - (if (deleteRec n i).1 then 1 else 0) := by
  intro n
  induction n with
  | leaf => simp [deleteRec, treeSize]
  | node nr songs l r ihl ihr =>
    rw [deleteRec]
    match hrm : removeFirstById songs i with
    | some songs2 =>
      have := removeFirstById_length songs i songs2 hrm
      simp [treeSize]
      omega
    | none =>
      cases hbl : (deleteRec l i).1
      · simp only [hbl, Bool.false_eq_true, if_false, treeSize]
        rw [ihr]
        cases hbr : (deleteRec r i).1 <;> simp [hbl, hbr] <;> omega
      · simp only [hbl, if_true, treeSize]
        rw [ihl]
        simp [hbl]
        omega

theorem applyOp_count (st : State) (op : TreeOp)
    (hst : st.total_songs = treeSize st.root) :
    (applyOp st op).total_songs = treeSize (applyOp st op).root := by
  cases op with
  | ins song rating =>
    simp only [applyOp, insert_song]
    match hroot : st.root with
    | RNode.leaf =>
      rw [hroot] at hst
      simp only [treeSize] at hst
      simp [treeSize, hst]
    | RNode.node nr songs l r =>
      rw [hroot] at hst
      simp only []
      rw [insertRec_size]
      cases hb : (insertRec (RNode.node nr songs l r) song
          (clampRating (rating.getD song.rating))).1 <;> simp [hb, hst]
  | del i =>
    simp only [applyOp, delete_song]
    rw [deleteRec_size]
    cases hb : (deleteRec st.root i).1 <;> simp [hb, hst]

/-- C10: after any sequence of `insert_song`/`delete_song` operations from
the empty tree, `get_song_count` (the `total_songs` counter) equals the
sum over all tree nodes of the number of songs stored in that node;
no-op inserts (id already present under the target rating) and no-op
deletes leave both sides unchanged. -/
theorem song_count_matches_tree (ops : List TreeOp) :
    get_song_count (applyOps initState ops) = treeSize (applyOps initState ops).root := by
  suffices h : ∀ (st : State), st.total_songs = treeSize st.root →
      (applyOps st ops).total_songs = treeSize (applyOps st ops).root by
    exact h initState (by simp [initState, treeSize])
  induction ops with
  | nil => intro st hst; exact hst
  | cons op rest ih =>
    intro st hst
    show (applyOps (applyOp st op) rest).total_songs = _
    exact ih (applyOp st op) (applyOp_count st op hst)

end SongRatingTree

namespace SongRatingTree

/-- Concatenation of rating bands. -/
def joinBands : List (List Song) → List Song
  | [] => []
  | b :: bs => b ++ joinBands bs

theorem topRatedLoop_take (st : State) (limit : Int) :
    ∀ (rs : List Int) (acc : List Song),
      (topRatedLoop st limit rs acc).take limit.toNat =
        (acc ++ joinBands (rs.map (search_by_rating st))).take limit.toNat := by
  intro rs
  induction rs with
  | nil => intro acc; simp [topRatedLoop, joinBands]
  | cons r rs ih =>
    intro acc
    rw [topRatedLoop]
    by_cases hb : limit ≤ ((acc ++ search_by_rating st r).length : Int)
    · rw [if_pos hb]
      have hlen : limit.toNat ≤ (acc ++ search_by_rating st r).length := by omega
      rw [List.map_cons]
      rw [show joinBands (search_by_rating st r :: rs.map (search_by_rating st)) =
        search_by_rating st r ++ joinBands (rs.map (search_by_rating st)) from rfl]
      rw [← List.append_assoc]
      exact (List.take_append_of_le_length hlen).symm
    · rw [if_neg hb]
      rw [ih (acc ++ search_by_rating st r)]
      rw [List.map_cons]
      rw [show joinBands (search_by_rating st r :: rs.map (search_by_rating st)) =
        search_by_rating st r ++ joinBands (rs.map (search_by_rating st)) from rfl]
      rw [← List.append_assoc]

/-- The three tracks of the C7 scenario. -/
def songTopA : Song := ⟨"ta", "A", "art", 100, 5, 0, 0, 0⟩

/-- Scenario track B (rating 5, inserted after A). -/
def songTopB : Song := ⟨"tb", "B", "art", 100, 5, 0, 0, 0⟩

/-- Scenario track C (rating 3). -/
def songTopC : Song := ⟨"tc", "C", "art", 100, 3, 0, 0, 0⟩

/-- The tree state after inserting A(5), B(5), C(3) in that order. -/
def topRatedScenario : State :=
  (insert_song
    (insert_song ((insert_song initState songTopA none).2) songTopB none).2
    songTopC none).2

/-- C7: `topRated(k)` returns up to k tracks by scanning rating bands 5
down to 0 (each band in insertion order, since inserts append); in the
scenario A(5), B(5), C(3), `topRated(2)` is [A,B], not [A,C]. -/
theorem top_rated_bands_spec :
    get_top_rated_songs topRatedScenario 2 = [songTopA, songTopB] ∧
    (∀ (st : State) (k : Int), 0 ≤ k →
      get_top_rated_songs st k =
        (search_by_rating st 5 ++ search_by_rating st 4 ++ search_by_rating st 3 ++
          search_by_rating st 2 ++ search_by_rating st 1 ++
          search_by_rating st 0).take k.toNat) := by
  constructor
  · decide
  · intro st k hk
    unfold get_top_rated_songs pySlice
    rw [if_pos hk]
    rw [topRatedLoop_take st k [5, 4, 3, 2, 1, 0] []]
    simp [joinBands, List.append_assoc]

/-- Witness for `top_rated_bands_spec`: its general part applied to the
scenario state at k=2. -/
theorem top_rated_bands_spec_witness :
    get_top_rated_songs topRatedScenario 2 =
      (search_by_rating topRatedScenario 5 ++ search_by_rating topRatedScenario 4 ++
        search_by_rating topRatedScenario 3 ++ search_by_rating topRatedScenario 2 ++
        search_by_rating topRatedScenario 1 ++
        search_by_rating topRatedScenario 0).take (Int.toNat 2) :=
  top_rated_bands_spec.2 topRatedScenario 2 (by decide)

end SongRatingTree

namespace SongRatingTree

theorem findNode_node (nr x : Int) (songs : List Song) (l r : RNode) :
    findNode (RNode.node nr songs l r) x =
      if nr = x then some (RNode.node nr songs l r)
      else if x < nr then findNode l x else findNode r x := by
  rw [findNode]

theorem songsAt_node (nr x : Int) (songs : List Song) (l r : RNode) :
    songsAt (RNode.node nr songs l r) x =
      if nr = x then songs else if x < nr then songsAt l x else songsAt r x := by
  unfold songsAt
  rw [findNode_node]
  by_cases h : nr = x
  · rw [if_pos h, if_pos h]
    rfl
  · rw [if_neg h, if_neg h]
    by_cases h2 : x < nr
    · rw [if_pos h2, if_pos h2]
    · rw [if_neg h2, if_neg h2]

theorem songsAt_leaf (x : Int) : songsAt RNode.leaf x = [] := rfl

theorem range_eq_songsAt : ∀ (n : RNode) (r : Int), rangeSearch n r r = songsAt n r := by
  intro n
  induction n with
  | leaf => intro r; rfl
  | node nr songs l rt ihl ihr =>
    intro r
    rw [rangeSearch, songsAt_node]
    by_cases h : nr = r
    · rw [if_pos h]
      rw [if_pos (show r ≤ nr ∧ nr ≤ r from by omega)]
      rw [if_neg (show ¬ r < nr from by omega)]
      rw [if_neg (show ¬ r > nr from by omega)]
      simp
    · rw [if_neg h]
      by_cases h2 : r < nr
      · rw [if_pos h2]
        rw [if_neg (show ¬ (r ≤ nr ∧ nr ≤ r) from by omega)]
        rw [if_pos h2]
        rw [if_neg (show ¬ r > nr from by omega)]
        simp [ihl r]
      · rw [if_neg h2]
        rw [if_neg (show ¬ (r ≤ nr ∧ nr ≤ r) from by omega)]
        rw [if_neg h2]
        rw [if_pos (show r > nr from by omega)]
        simp [ihr r]

theorem idFree_songsAt : ∀ (n : RNode) (i : String), idFree n i →
    ∀ (x : Int), ∀ s ∈ songsAt n x, s.id ≠ i := by
  intro n
  induction n with
  | leaf => intro i _ x s hs; simp [songsAt_leaf] at hs
  | node nr songs l r ihl ihr =>
    intro i hf x s hs
    rcases hf with ⟨hsongs, hl, hr⟩
    rw [songsAt_node] at hs
    by_cases h : nr = x
    · rw [if_pos h] at hs
      exact hsongs s hs
    · rw [if_neg h] at hs
      by_cases h2 : x < nr
      · rw [if_pos h2] at hs
        exact ihl i hl x s hs
      · rw [if_neg h2] at hs
        exact ihr i hr x s hs

theorem insertRec_songsAt_self : ∀ (n : RNode) (song : Song) (ρ : Int),
    (∀ s ∈ songsAt n ρ, s.id ≠ song.id) →
    songsAt (insertRec n song ρ).2 ρ = songsAt n ρ ++ [song] := by
  intro n
  induction n with
  | leaf =>
    intro song ρ _
    rw [insertRec]
    simp [songsAt_node, songsAt_leaf]
  | node nr songs l r ihl ihr =>
    intro song ρ hfree
    rw [insertRec]
    by_cases h1 : ρ = nr
    · rw [if_pos h1]
      have hsongs : songsAt (RNode.node nr songs l r) ρ = songs := by
        rw [songsAt_node, if_pos h1.symm]
      have hany : songs.any (fun s => s.id = song.id) = false := by
        rw [List.any_eq_false]
        intro s hs
        simp only [decide_eq_true_eq]
        exact hfree s (by rw [hsongs]; exact hs)
      rw [hany]
      simp only [Bool.false_eq_true, if_false]
      rw [songsAt_node, if_pos h1.symm, hsongs]
    · rw [if_neg h1]
      by_cases h3 : ρ < nr
      · rw [if_pos h3]
        have hsub : songsAt (RNode.node nr songs l r) ρ = songsAt l ρ := by
          rw [songsAt_node, if_neg (by omega), if_pos h3]
        by_cases hl : l = RNode.leaf
        · rw [if_pos hl]
          rw [songsAt_node, if_neg (by omega), if_pos h3]
          rw [songsAt_node, if_pos rfl]
          rw [hsub, hl, songsAt_leaf]
          rfl
        · rw [if_neg hl]
          rw [songsAt_node, if_neg (by omega), if_pos h3]
          rw [hsub]
          exact ihl song ρ (by rw [← hsub]; exact hfree)
      · rw [if_neg h3]
        have hsub : songsAt (RNode.node nr songs l r) ρ = songsAt r ρ := by
          rw [songsAt_node, if_neg (by omega), if_neg h3]
        by_cases hr : r = RNode.leaf
        · rw [if_pos hr]
          rw [songsAt_node, if_neg (by omega), if_neg h3]
          rw [songsAt_node, if_pos rfl]
          rw [hsub, hr, songsAt_leaf]
          rfl
        · rw [if_neg hr]
          rw [songsAt_node, if_neg (by omega), if_neg h3]
          rw [hsub]
          exact ihr song ρ (by rw [← hsub]; exact hfree)

theorem insertRec_songsAt_ne : ∀ (n : RNode) (song : Song) (ρ x : Int), x ≠ ρ →
    songsAt (insertRec n song ρ).2 x = songsAt n x := by
  intro n
  induction n with
  | leaf =>
    intro song ρ x hx
    rw [insertRec]
    rw [songsAt_node, if_neg (show ¬ ρ = x from by omega), songsAt_leaf]
    by_cases h : x < ρ
    · rw [if_pos h]
    · rw [if_neg h]
  | node nr songs l r ihl ihr =>
    intro song ρ x hx
    have hρx : ¬ ρ = x := fun e => hx e.symm
    rw [insertRec]
    by_cases h1 : ρ = nr
    · rw [if_pos h1]
      by_cases h2 : songs.any (fun s => s.id = song.id)
      · rw [if_pos h2]
      · rw [if_neg h2]
        simp only [Bool.false_eq_true, if_false]
        have h4 : ¬ nr = x := fun e => hρx (h1.trans e)
        simp only [songsAt_node, h4, if_false]
    · rw [if_neg h1]
      by_cases h3 : ρ < nr
      · rw [if_pos h3]
        by_cases hl : l = RNode.leaf
        · rw [if_pos hl, hl]
          simp only [songsAt_node, songsAt_leaf]
          by_cases h4 : nr = x
          · simp [h4]
          · by_cases h5 : x < nr
            · simp [h4, h5, hρx]
            · simp [h4, h5]
        · rw [if_neg hl]
          simp only [songsAt_node]
          by_cases h4 : nr = x
          · simp [h4]
          · by_cases h5 : x < nr
            · simp [h4, h5, ihl song ρ x hx]
            · simp [h4, h5]
      · rw [if_neg h3]
        by_cases hr : r = RNode.leaf
        · rw [if_pos hr, hr]
          simp only [songsAt_node, songsAt_leaf]
          by_cases h4 : nr = x
          · simp [h4]
          · by_cases h5 : x < nr
            · simp [h4, h5]
            · simp [h4, h5, hρx]
        · rw [if_neg hr]
          simp only [songsAt_node]
          by_cases h4 : nr = x
          · simp [h4]
          · by_cases h5 : x < nr
            · simp [h4, h5]
            · simp [h4, h5, ihr song ρ x hx]

end SongRatingTree

namespace SongRatingTree

theorem removeFirstById_eq_none (i : String) : ∀ (l : List Song),
    (∀ s ∈ l, s.id ≠ i) → removeFirstById l i = none := by
  intro l
  induction l with
  | nil => intro _; rfl
  | cons s t ih =>
    intro h
    rw [removeFirstById]
    rw [if_neg (h s (List.mem_cons_self s t))]
    rw [ih (fun x hx => h x (List.mem_cons_of_mem s hx))]
    rfl

theorem removeFirstById_append_last (i : String) (song : Song) (hs : song.id = i) :
    ∀ (l : List Song), (∀ s ∈ l, s.id ≠ i) →
      removeFirstById (l ++ [song]) i = some l := by
  intro l
  induction l with
  | nil =>
    intro _
    rw [List.nil_append, removeFirstById, if_pos hs]
  | cons s t ih =>
    intro h
    rw [List.cons_append, removeFirstById]
    rw [if_neg (h s (List.mem_cons_self s t))]
    rw [ih (fun x hx => h x (List.mem_cons_of_mem s hx))]
    rfl

theorem deleteRec_of_idFree (i : String) : ∀ (n : RNode),
    idFree n i → deleteRec n i = (false, n) := by
  intro n
  induction n with
  | leaf => intro _; rfl
  | node nr songs l r ihl ihr =>
    intro hf
    rcases hf with ⟨hsongs, hfl, hfr⟩
    rw [deleteRec]
    rw [removeFirstById_eq_none i songs hsongs]
    rw [ihl hfl, ihr hfr]
    rfl

/-- Inserting a fresh song at rating ρ and then deleting it by id succeeds
and restores every rating band; the id is gone again afterwards. -/
theorem delete_after_insert (song : Song) (ρ : Int) : ∀ (n : RNode),
    idFree n song.id →
    (deleteRec (insertRec n song ρ).2 song.id).1 = true ∧
    (∀ x, songsAt (deleteRec (insertRec n song ρ).2 song.id).2 x = songsAt n x) ∧
    idFree (deleteRec (insertRec n song ρ).2 song.id).2 song.id := by
  intro n
  induction n with
  | leaf =>
    intro _
    rw [insertRec]
    simp only []
    rw [deleteRec]
    rw [removeFirstById]
    rw [if_pos rfl]
    refine ⟨rfl, ?_, ?_⟩
    · intro x
      simp only [songsAt_node, songsAt_leaf]
      by_cases h : ρ = x
      · simp [h]
      · by_cases h2 : x < ρ <;> simp [h, h2]
    · exact ⟨by simp, trivial, trivial⟩
  | node nr songs l r ihl ihr =>
    intro hf
    rcases hf with ⟨hsongs, hfl, hfr⟩
    rw [insertRec]
    by_cases h1 : ρ = nr
    · rw [if_pos h1]
      have hany : songs.any (fun s => s.id = song.id) = false := by
        rw [List.any_eq_false]
        intro s hs
        simp only [decide_eq_true_eq]
        exact fun e => hsongs s hs e
      rw [hany]
      simp only [Bool.false_eq_true, if_false]
      rw [deleteRec]
      rw [removeFirstById_append_last song.id song rfl songs hsongs]
      refine ⟨?_, ?_, ?_⟩
      · rfl
      · intro x
        rfl
      · exact ⟨hsongs, hfl, hfr⟩
    · rw [if_neg h1]
      by_cases h3 : ρ < nr
      · rw [if_pos h3]
        by_cases hl : l = RNode.leaf
        · rw [if_pos hl]
          rw [deleteRec]
          rw [removeFirstById_eq_none song.id songs hsongs]
          simp only []
          rw [deleteRec]
          rw [removeFirstById]
          rw [if_pos rfl]
          refine ⟨by simp, ?_, ?_⟩
          · intro x
            rw [hl]
            by_cases h4 : nr = x
            · simp [songsAt_node, songsAt_leaf, h4]
            · by_cases h5 : x < nr
              · by_cases h6 : ρ = x <;> by_cases h7 : x < ρ <;>
                  simp [songsAt_node, songsAt_leaf, h4, h5, h6, h7]
              · simp [songsAt_node, songsAt_leaf, h4, h5]
          · exact ⟨hsongs, ⟨by simp, trivial, trivial⟩, hfr⟩
        · rw [if_neg hl]
          rcases ihl hfl with ⟨ihb, ihs, ihf⟩
          rw [deleteRec]
          rw [removeFirstById_eq_none song.id songs hsongs]
          simp only []
          rw [ihb]
          refine ⟨by simp, ?_, ?_⟩
          · intro x
            by_cases h4 : nr = x
            · simp [songsAt_node, h4]
            · by_cases h5 : x < nr
              · simp [songsAt_node, h4, h5, ihs x]
              · simp [songsAt_node, h4, h5]
          · exact ⟨hsongs, ihf, hfr⟩
      · rw [if_neg h3]
        by_cases hr : r = RNode.leaf
        · rw [if_pos hr]
          rw [deleteRec]
          rw [removeFirstById_eq_none song.id songs hsongs]
          simp only []
          rw [deleteRec_of_idFree song.id l hfl]
          simp only [Bool.false_eq_true, if_false]
          rw [deleteRec]
          rw [removeFirstById]
          rw [if_pos rfl]
          refine ⟨by simp, ?_, ?_⟩
          · intro x
            rw [hr]
            by_cases h4 : nr = x
            · simp [songsAt_node, songsAt_leaf, h4]
            · by_cases h5 : x < nr
              · simp [songsAt_node, songsAt_leaf, h4, h5]
              · by_cases h6 : ρ = x <;> by_cases h7 : x < ρ <;>
                  simp [songsAt_node, songsAt_leaf, h4, h5, h6, h7]
          · exact ⟨hsongs, hfl, ⟨by simp, trivial, trivial⟩⟩
        · rw [if_neg hr]
          rcases ihr hfr with ⟨ihb, ihs, ihf⟩
          rw [deleteRec]
          rw [removeFirstById_eq_none song.id songs hsongs]
          simp only []
          rw [deleteRec_of_idFree song.id l hfl]
          simp only [Bool.false_eq_true, if_false]
          rw [ihb]
          refine ⟨by simp, ?_, ?_⟩
          · intro x
            by_cases h4 : nr = x
            · simp [songsAt_node, h4]
            · by_cases h5 : x < nr
              · simp [songsAt_node, h4, h5]
              · simp [songsAt_node, h4, h5, ihs x]
          · exact ⟨hsongs, hfl, ihf⟩

end SongRatingTree

namespace SongRatingTree

theorem clampRating_id (r : Int) (h0 : 0 ≤ r) (h5 : r ≤ 5) : clampRating r = r := by
  unfold clampRating
  omega

theorem insert_song_root (st : State) (song : Song) (r? : Option Int) :
    (insert_song st song r?).2.root =
      (insertRec st.root song (clampRating (r?.getD song.rating))).2 := by
  unfold insert_song
  match hroot : st.root with
  | RNode.leaf =>
    rw [insertRec]
  | RNode.node nr songs l r =>
    rfl

theorem delete_song_root (st : State) (i : String) :
    (delete_song st i).2.root = (deleteRec st.root i).2 := rfl

theorem range_query_point (st : State) (r : Int) (h0 : 0 ≤ r) (h5 : r ≤ 5) :
    get_songs_by_rating_range st r r = songsAt st.root r := by
  unfold get_songs_by_rating_range
  rw [clampRating_id r h0 h5]
  rw [if_neg (lt_irrefl r)]
  exact range_eq_songsAt st.root r

/-- C3: starting from any tree state that does not contain the track's
id, inserting the track at rating r makes `rangeQuery(r,r)` include it;
deleting it by id and re-inserting at r2 ≠ r makes `rangeQuery(r,r)`
exclude it (no result has its id) and `rangeQuery(r2,r2)` include it. -/
theorem rating_round_trip :
    ∀ (st : State) (song : Song) (r r2 : Int),
      idFree st.root song.id → 0 ≤ r → r ≤ 5 → 0 ≤ r2 → r2 ≤ 5 → r2 ≠ r →
      (song ∈ get_songs_by_rating_range (insert_song st song (some r)).2 r r) ∧
      (∀ s ∈ get_songs_by_rating_range
          (insert_song
            (delete_song (insert_song st song (some r)).2 song.id).2
            song (some r2)).2 r r,
        s.id ≠ song.id) ∧
      (song ∈ get_songs_by_rating_range
          (insert_song
            (delete_song (insert_song st song (some r)).2 song.id).2
            song (some r2)).2 r2 r2) := by
  intro st song r r2 hfree h0 h5 h02 h52 hne
  have hclamp : clampRating ((some r).getD song.rating) = r := by
    simp only [Option.getD_some]
    exact clampRating_id r h0 h5
  have hclamp2 : clampRating ((some r2).getD song.rating) = r2 := by
    simp only [Option.getD_some]
    exact clampRating_id r2 h02 h52
  set t0 := st.root with ht0
  have hroot1 : (insert_song st song (some r)).2.root = (insertRec t0 song r).2 := by
    rw [insert_song_root, hclamp]
  have hfree_band : ∀ x, ∀ s ∈ songsAt t0 x, s.id ≠ song.id :=
    idFree_songsAt t0 song.id hfree
  -- part 1: after the insert at r, the point query at r contains the song
  have hq1 : get_songs_by_rating_range (insert_song st song (some r)).2 r r =
      songsAt t0 r ++ [song] := by
    rw [range_query_point _ r h0 h5, hroot1]
    exact insertRec_songsAt_self t0 song r (hfree_band r)
  refine ⟨?_, ?_, ?_⟩
  · rw [hq1]
    exact List.mem_append_right _ (List.mem_singleton_self song)
  all_goals {
    have hdel := delete_after_insert song r t0 hfree
    have hroot2 : (delete_song (insert_song st song (some r)).2 song.id).2.root =
        (deleteRec (insertRec t0 song r).2 song.id).2 := by
      rw [delete_song_root, hroot1]
    have hroot3 :
        (insert_song (delete_song (insert_song st song (some r)).2 song.id).2
            song (some r2)).2.root =
        (insertRec (deleteRec (insertRec t0 song r).2 song.id).2 song r2).2 := by
      rw [insert_song_root, hclamp2, hroot2]
    rcases hdel with ⟨_, hsongs2, hfree2⟩
    first
    | -- the r band after the round trip has no song with the id
      (rw [range_query_point _ r h0 h5, hroot3]
       rw [insertRec_songsAt_ne _ song r2 r (fun e => hne e.symm)]
       rw [hsongs2 r]
       exact hfree_band r)
    | -- the r2 band after the round trip contains the song
      (rw [range_query_point _ r2 h02 h52, hroot3]
       rw [insertRec_songsAt_self _ song r2
         (fun s hs => idFree_songsAt _ song.id hfree2 r2 s hs)]
       exact List.mem_append_right _ (List.mem_singleton_self song))
  }

/-- Witness for `rating_round_trip`: the empty tree, a concrete track,
r=5, r2=3. -/
theorem rating_round_trip_witness :
    ((⟨"w1", "W", "art", 100, 0, 0, 0, 0⟩ : Song) ∈
      get_songs_by_rating_range
        (insert_song initState ⟨"w1", "W", "art", 100, 0, 0, 0, 0⟩ (some 5)).2 5 5) ∧
    ((⟨"w1", "W", "art", 100, 0, 0, 0, 0⟩ : Song) ∈
      get_songs_by_rating_range
        (insert_song
          (delete_song
            (insert_song initState ⟨"w1", "W", "art", 100, 0, 0, 0, 0⟩ (some 5)).2
            "w1").2
          ⟨"w1", "W", "art", 100, 0, 0, 0, 0⟩ (some 3)).2 3 3) := by
  have h := rating_round_trip initState ⟨"w1", "W", "art", 100, 0, 0, 0, 0⟩ 5 3
    trivial (by decide) (by decide) (by decide) (by decide) (by decide)
  exact ⟨h.1, h.2.2⟩

end SongRatingTree

/-! ## Auto cleaner (`core/auto_cleaner.py`)

Duplicate detection/removal over composite keys.  The four entries of
`key_strategies` form a closed set (the constructor fixes
`current_strategy` to a member and `set_duplicate_strategy` validates), so
the strategy is modelled as an enumeration.  The cumulative statistics
counters (`duplicates_found`, `unique_songs_processed`) do not affect the
returned lists and are not modelled. -/

namespace AutoCleaner

inductive Strategy where
  | title_artist
  | title_artist_duration
  | title_only
  | strict
  deriving Repr, DecidableEq

/-- `song.title.lower().strip()` etc. -/
def normField (s : String) : String := s.toLower.trim

/-- The four key generators `_generate_*_key` (f-string concatenation
with `_` separators; `str(int)` is `toString`). -/
def keyGen : Strategy → Song → String
  | Strategy.title_artist, s => normField s.title ++ "_" ++ normField s.artist
  | Strategy.title_artist_duration, s =>
      normField s.title ++ "_" ++ normField s.artist ++ "_" ++ toString s.duration
  | Strategy.title_only, s => normField s.title
  | Strategy.strict, s =>
      normField s.title ++ "_" ++ normField s.artist ++ "_" ++ toString s.duration ++
        "_" ++ toString s.rating

/-- The loop of `remove_duplicates`: keep the first song of each key,
tracking seen keys (`seen_in_this_batch`). -/
def removeDupGo (strat : Strategy) (seen : List String) : List Song → List Song
  | [] => []
  | s :: t =>
    let k := keyGen strat s
    if k ∈ seen then removeDupGo strat seen t
    else s :: removeDupGo strat (k :: seen) t

/-- `AutoCleaner.remove_duplicates`. -/
def remove_duplicates (strat : Strategy) (songs : List Song) : List Song :=
  removeDupGo strat [] songs

/-- Lookup in the `key_to_best_song` dict. -/
def lookupKey : List (String × Song) → String → Option Song
  | [], _ => none
  | (k2, v) :: t, k => if k2 = k then some v else lookupKey t k

/-- `dict[key] = v` on a present key: replace the value in place. -/
def setValue : List (String × Song) → String → Song → List (String × Song)
  | [], k, v => [(k, v)]
  | (k2, v2) :: t, k, v =>
      if k2 = k then (k, v) :: t else (k2, v2) :: setValue t k v

/-- One iteration of the `clean_playlist_duplicates` loop over
`key_to_best_song` (a Python dict, insertion ordered). -/
def cpdStep (strat : Strategy) (keep : Bool) (m : List (String × Song))
    (song : Song) : List (String × Song) :=
  let k := keyGen strat song
  match lookupKey m k with
  | none => m ++ [(k, song)]
  | some existing =>
    if keep ∧ (song.rating > existing.rating ∨
        (song.rating = existing.rating ∧ song.playCount > existing.playCount)) then
      setValue m k song
    else m

/-- `AutoCleaner.clean_playlist_duplicates`: fold the songs through the
dict and return `list(key_to_best_song.values())`. -/
def clean_playlist_duplicates (strat : Strategy) (keep : Bool)
    (songs : List Song) : List Song :=
  (songs.foldl (cpdStep strat keep) []).map Prod.snd

end AutoCleaner

namespace AutoCleaner

theorem removeDupGo_keys (strat : Strategy) : ∀ (t : List Song) (seen : List String),
    ((removeDupGo strat seen t).map (keyGen strat)).Nodup ∧
    (∀ k ∈ (removeDupGo strat seen t).map (keyGen strat), k ∉ seen) := by
  intro t
  induction t with
  | nil => intro seen; exact ⟨List.Pairwise.nil, by simp [removeDupGo]⟩
  | cons s t ih =>
    intro seen
    rw [removeDupGo]
    by_cases h : keyGen strat s ∈ seen
    · rw [if_pos h]
      exact ih seen
    · rw [if_neg h]
      rcases ih (keyGen strat s :: seen) with ⟨hnd, hnin⟩
      constructor
      · rw [List.map_cons]
        apply List.Pairwise.cons
        · intro k hk
          have := hnin k hk
          intro he
          exact this (by rw [← he]; exact List.mem_cons_self _ _)
        · exact hnd
      · intro k hk
        rw [List.map_cons] at hk
        rcases List.mem_cons.mp hk with rfl | hk2
        · exact h
        · exact fun hs => hnin k hk2 (List.mem_cons_of_mem _ hs)

theorem removeDupGo_id (strat : Strategy) : ∀ (t : List Song) (seen : List String),
    ((t.map (keyGen strat)).Nodup) →
    (∀ k ∈ t.map (keyGen strat), k ∉ seen) →
    removeDupGo strat seen t = t := by
  intro t
  induction t with
  | nil => intro seen _ _; rfl
  | cons s t ih =>
    intro seen hnd hnin
    rw [removeDupGo]
    rw [if_neg (hnin (keyGen strat s) (by simp))]
    rw [List.map_cons] at hnd
    rcases List.pairwise_cons.mp hnd with ⟨hs, hnd2⟩
    rw [ih (keyGen strat s :: seen) hnd2 ?_]
    intro k hk
    intro hmem
    rcases List.mem_cons.mp hmem with rfl | hmem2
    · rcases List.mem_map.mp hk with ⟨x, hx, hkx⟩
      exact hs (keyGen strat x) (List.mem_map_of_mem _ hx) hkx.symm
    · exact hnin k (List.mem_cons_of_mem _ hk) hmem2

theorem lookupKey_eq_none_of_not_mem : ∀ (m : List (String × Song)) (k : String),
    k ∉ m.map Prod.fst → lookupKey m k = none := by
  intro m
  induction m with
  | nil => intro k _; rfl
  | cons p t ih =>
    intro k hk
    rw [List.map_cons, List.mem_cons] at hk
    push_neg at hk
    match p with
    | (k2, v) =>
      rw [lookupKey]
      have hk1 : ¬ k = k2 := by simpa using hk.1
      have hne : ¬ k2 = k := fun e => hk1 e.symm
      rw [if_neg hne]
      exact ih k hk.2

theorem cpd_fold_fresh (strat : Strategy) (keep : Bool) :
    ∀ (ys : List Song) (m0 : List (String × Song)),
      ((ys.map (keyGen strat)).Nodup) →
      (∀ k ∈ ys.map (keyGen strat), k ∉ m0.map Prod.fst) →
      ys.foldl (cpdStep strat keep) m0 =
        m0 ++ ys.map (fun s => (keyGen strat s, s)) := by
  intro ys
  induction ys with
  | nil => intro m0 _ _; simp
  | cons s t ih =>
    intro m0 hnd hnin
    rw [List.foldl_cons]
    have hstep : cpdStep strat keep m0 s = m0 ++ [(keyGen strat s, s)] := by
      unfold cpdStep
      simp only []
      rw [lookupKey_eq_none_of_not_mem m0 (keyGen strat s)
        (hnin (keyGen strat s) (by simp))]
    rw [hstep]
    rw [List.map_cons] at hnd
    rcases List.pairwise_cons.mp hnd with ⟨hs, hnd2⟩
    rw [ih (m0 ++ [(keyGen strat s, s)]) hnd2 ?_]
    · simp
    · intro k hk
      rw [List.map_append]
      rw [List.mem_append]
      push_neg
      constructor
      · exact hnin k (List.mem_cons_of_mem _ hk)
      · simp only [List.map_cons, List.map_nil, List.mem_singleton]
        rcases List.mem_map.mp hk with ⟨x, hx, hkx⟩
        exact fun he => hs (keyGen strat x) (List.mem_map_of_mem _ hx)
          (by rw [hkx]; exact he.symm)

end AutoCleaner

namespace AutoCleaner

/-- Invariant of the `key_to_best_song` dict: keys are distinct and each
stored song generates its key. -/
def cpdInv (strat : Strategy) (m : List (String × Song)) : Prop :=
  (m.map Prod.fst).Nodup ∧ ∀ p ∈ m, keyGen strat p.2 = p.1

theorem lookupKey_isSome_of_mem : ∀ (m : List (String × Song)) (k : String),
    k ∈ m.map Prod.fst → (lookupKey m k).isSome := by
  intro m
  induction m with
  | nil => intro k hk; simp at hk
  | cons p t ih =>
    intro k hk
    match p with
    | (k2, v) =>
      rw [lookupKey]
      by_cases h : k2 = k
      · rw [if_pos h]
        rfl
      · rw [if_neg h]
        apply ih
        rw [List.map_cons] at hk
        rcases List.mem_cons.mp hk with he | hm
        · exact absurd he.symm h
        · exact hm

theorem setValue_keys : ∀ (m : List (String × Song)) (k : String) (v : Song),
    k ∈ m.map Prod.fst → (setValue m k v).map Prod.fst = m.map Prod.fst := by
  intro m
  induction m with
  | nil => intro k v hk; simp at hk
  | cons p t ih =>
    intro k v hk
    match p with
    | (k2, v2) =>
      rw [setValue]
      by_cases h : k2 = k
      · rw [if_pos h]
        simp [h]
      · rw [if_neg h]
        rw [List.map_cons, List.map_cons, ih k v ?_]
        rw [List.map_cons] at hk
        rcases List.mem_cons.mp hk with he | hm
        · exact absurd he.symm h
        · exact hm

theorem setValue_mem : ∀ (m : List (String × Song)) (k : String) (v : Song),
    ∀ p ∈ setValue m k v, p = (k, v) ∨ p ∈ m := by
  intro m
  induction m with
  | nil =>
    intro k v p hp
    rw [setValue] at hp
    left
    simpa using hp
  | cons q t ih =>
    intro k v p hp
    match q with
    | (k2, v2) =>
      rw [setValue] at hp
      by_cases h : k2 = k
      · rw [if_pos h] at hp
        rcases List.mem_cons.mp hp with rfl | hm
        · left; rfl
        · right; exact List.mem_cons_of_mem _ hm
      · rw [if_neg h] at hp
        rcases List.mem_cons.mp hp with rfl | hm
        · right; exact List.mem_cons_self _ _
        · rcases ih k v p hm with he | hm2
          · left; exact he
          · right; exact List.mem_cons_of_mem _ hm2

theorem cpdStep_inv (strat : Strategy) (keep : Bool) (m : List (String × Song))
    (song : Song) (h : cpdInv strat m) : cpdInv strat (cpdStep strat keep m song) := by
  rcases h with ⟨hnd, hkeyed⟩
  unfold cpdStep
  simp only []
  cases hlk : lookupKey m (keyGen strat song) with
  | none =>
    simp only []
    have hnin : keyGen strat song ∉ m.map Prod.fst := by
      intro hmem
      have := lookupKey_isSome_of_mem m (keyGen strat song) hmem
      rw [hlk] at this
      simp at this
    constructor
    · rw [List.map_append]
      simp only [List.map_cons, List.map_nil]
      rw [List.nodup_append]
      refine ⟨hnd, List.nodup_singleton _, ?_⟩
      intro a ha hb
      simp only [List.mem_singleton] at hb
      subst hb
      exact hnin ha
    · intro p hp
      rcases List.mem_append.mp hp with hm | hs
      · exact hkeyed p hm
      · simp only [List.mem_singleton] at hs
        subst hs
        rfl
  | some existing =>
    simp only []
    have hmem : keyGen strat song ∈ m.map Prod.fst := by
      by_contra hn
      rw [lookupKey_eq_none_of_not_mem m _ hn] at hlk
      cases hlk
    split
    · constructor
      · rw [setValue_keys m _ song hmem]
        exact hnd
      · intro p hp
        rcases setValue_mem m _ song p hp with rfl | hm
        · rfl
        · exact hkeyed p hm
    · exact ⟨hnd, hkeyed⟩

theorem cpd_fold_inv (strat : Strategy) (keep : Bool) :
    ∀ (songs : List Song) (m0 : List (String × Song)),
      cpdInv strat m0 → cpdInv strat (songs.foldl (cpdStep strat keep) m0) := by
  intro songs
  induction songs with
  | nil => intro m0 h; exact h
  | cons s t ih =>
    intro m0 h
    rw [List.foldl_cons]
    exact ih _ (cpdStep_inv strat keep m0 s h)

theorem map_key_snd_eq_fst (strat : Strategy) : ∀ (m : List (String × Song)),
    (∀ p ∈ m, keyGen strat p.2 = p.1) →
    m.map (fun p => keyGen strat p.2) = m.map Prod.fst := by
  intro m
  induction m with
  | nil => intro _; rfl
  | cons p t ih =>
    intro h
    rw [List.map_cons, List.map_cons]
    rw [h p (List.mem_cons_self _ _)]
    rw [ih (fun q hq => h q (List.mem_cons_of_mem _ hq))]

/-- C8: deduplication is idempotent for every key strategy and both
retention policies: both `remove_duplicates` (keep-first) and
`clean_playlist_duplicates` (keep-first or keep-highest-rated) return the
same list when applied to their own output. -/
theorem dedupe_idempotent :
    ∀ (strat : Strategy) (keep : Bool) (songs : List Song),
      remove_duplicates strat (remove_duplicates strat songs) =
        remove_duplicates strat songs ∧
      clean_playlist_duplicates strat keep
          (clean_playlist_duplicates strat keep songs) =
        clean_playlist_duplicates strat keep songs := by
  intro strat keep songs
  constructor
  · unfold remove_duplicates
    rcases removeDupGo_keys strat songs [] with ⟨hnd, _⟩
    exact removeDupGo_id strat _ [] hnd (by simp)
  · unfold clean_playlist_duplicates
    set m := songs.foldl (cpdStep strat keep) [] with hm
    have hinv : cpdInv strat m := cpd_fold_inv strat keep songs [] ⟨List.Pairwise.nil, by simp⟩
    have hkeys : (m.map Prod.snd).map (keyGen strat) = m.map Prod.fst := by
      rw [List.map_map]
      exact map_key_snd_eq_fst strat m hinv.2
    rw [cpd_fold_fresh strat keep (m.map Prod.snd) [] (by rw [hkeys]; exact hinv.1)
      (by simp)]
    rw [List.nil_append, List.map_map]
    have : (Prod.snd ∘ fun s => (keyGen strat s, s)) = id := rfl
    rw [this, List.map_id]

end AutoCleaner

/-! ## Favorites queue (`core/favorites_queue.py`)

A bounded priority structure over `heapq`.  `FavoriteItem.__lt__` orders
by negated listen time (`priority`), tie-broken by higher play count, so
Python's min-heap pops the entry with the highest (listen time, play
count) first.  `heapq` itself is the Python standard library, not part of
this repository; it is modelled from its documented contract — the heap
list satisfies the heap invariant, `heap[0]` is a minimal element under
`__lt__`, `heappush` inserts keeping the invariant, `heappop` removes and
returns `heap[0]`, `heapify` re-establishes the invariant — by keeping
the list fully sorted under `__lt__` (a canonical representative of the
heap invariant; `heap[0]` and the pop order are exactly as in CPython,
tie-free inputs aside). -/

namespace FavoritesQueue

/-- `FavoriteItem.__init__`: the wrapped song, the negated priority value,
and copies of the song's listen time and play count. -/
structure FavoriteItem where
  song : Song
  priority : Int
  listenTime : Int
  playCount : Int
  deriving Repr, DecidableEq

/-- `FavoriteItem.__lt__`: by `priority`, then by higher play count. -/
def itemLt (a b : FavoriteItem) : Prop :=
  a.priority < b.priority ∨ (a.priority = b.priority ∧ a.playCount > b.playCount)

instance (a b : FavoriteItem) : Decidable (itemLt a b) :=
  inferInstanceAs (Decidable (_ ∨ _))

/-- Modelled from the spec: `heapq.heappush` on the sorted-list heap
model — insert before the first strictly greater element. -/
def heappush (item : FavoriteItem) : List FavoriteItem → List FavoriteItem
  | [] => [item]
  | y :: t => if itemLt item y then item :: y :: t else y :: heappush item t

/-- Modelled from the spec: `heapq.heappop` — remove and return `heap[0]`
(the minimal element under `__lt__`). -/
def heappop : List FavoriteItem → Option (FavoriteItem × List FavoriteItem)
  | [] => none
  | x :: t => some (x, t)

/-- Modelled from the spec: `heapq.heapify` — re-establish the invariant
(re-sort, in this model). -/
def heapify (l : List FavoriteItem) : List FavoriteItem :=
  l.foldr heappush []

/-- `FavoritesQueue.__init__`. -/
structure State where
  heap : List FavoriteItem
  songIndex : List (String × Nat)
  maxSize : Nat
  totalListenTime : Int
  totalSongsAdded : Nat
  deriving Repr, DecidableEq

/-- `song_id in self.song_index` / `self.song_index[...]`. -/
def idxLookup : List (String × Nat) → String → Option Nat
  | [], _ => none
  | (k, v) :: t, i => if k = i then some v else idxLookup t i

/-- `self.song_index[id] = pos` (Python dict assignment). -/
def idxSet : List (String × Nat) → String → Nat → List (String × Nat)
  | [], i, pos => [(i, pos)]
  | (k, v) :: t, i, pos => if k = i then (i, pos) :: t else (k, v) :: idxSet t i pos

/-- `del self.song_index[id]`. -/
def idxDel : List (String × Nat) → String → List (String × Nat)
  | [], _ => []
  | (k, v) :: t, i => if k = i then t else (k, v) :: idxDel t i

/-- `FavoritesQueue._rebuild_index`: id → current heap position. -/
def rebuildIndex (heap : List FavoriteItem) : List (String × Nat) :=
  heap.enum.map (fun p => (p.2.song.id, p.1))

/-- The linear scan of `update_listen_time`: update the first item whose
song id matches, returning the new list and the previous `listen_time`. -/
def updateItems : List FavoriteItem → String → Int → Option (List FavoriteItem × Int)
  | [], _, _ => none
  | it :: t, i, nt =>
    if it.song.id = i then
      some (⟨{ it.song with listenTime := nt }, -nt, nt, it.playCount⟩ :: t,
        it.listenTime)
    else (updateItems t i nt).map (fun p => (it :: p.1, p.2))

/-- `FavoritesQueue.update_listen_time`: linear scan and update, then
full re-heapify and index rebuild. -/
def update_listen_time (st : State) (songId : String) (newTime : Int) : Bool × State :=
  match updateItems st.heap songId newTime with
  | some (h2, oldTime) =>
    let h3 := heapify h2
    (true, { st with
              heap := h3,
              songIndex := rebuildIndex h3,
              totalListenTime := st.totalListenTime + (newTime - oldTime) })
  | none => (false, st)

/-- Python's `listen_time or song.listen_time` (`or` is falsy-aware: an
explicit 0 falls through to the song's own value). -/
def pyOr (a : Option Int) (b : Int) : Int :=
  match a with
  | some v => if v = 0 then b else v
  | none => b

/-- `FavoritesQueue.add_song`.  `none` models the `IndexError` of
`self.heap[0]` on an empty heap (only reachable when `max_size = 0`).
At capacity the source compares the candidate against `-self.heap[0].priority`
and pops `heap[0]` — which, because `__lt__` sorts highest listen time
first, is the maximum-priority entry, not the minimum. -/
def add_song (st : State) (song : Song) (listenTime? : Option Int) :
    Option (Bool × State) :=
  if (idxLookup st.songIndex song.id).isSome then
    some (update_listen_time st song.id (pyOr listenTime? song.listenTime))
  else
    let pv := listenTime?.getD song.listenTime
    let song2 := match listenTime? with
      | some v => { song with listenTime := v }
      | none => song
    let item : FavoriteItem := ⟨song2, -pv, song2.listenTime, song2.playCount⟩
    if st.heap.length ≥ st.maxSize then
      match st.heap with
      | [] => none
      | h0 :: _ =>
        if pv > -h0.priority then
          match heappop st.heap with
          | some (removed, rest) =>
            let idx2 :=
              if (idxLookup st.songIndex removed.song.id).isSome then
                idxDel st.songIndex removed.song.id
              else st.songIndex
            let h2 := heappush item rest
            some (true, { st with
                            heap := h2,
                            songIndex := idxSet idx2 song.id (h2.length - 1),
                            totalSongsAdded := st.totalSongsAdded + 1,
                            totalListenTime := st.totalListenTime + pv })
          | none => none
        else some (false, st)
    else
      let h2 := heappush item st.heap
      some (true, { st with
                      heap := h2,
                      songIndex := idxSet st.songIndex song.id (h2.length - 1),
                      totalSongsAdded := st.totalSongsAdded + 1,
                      totalListenTime := st.totalListenTime + pv })

/-- The dict built for each entry of `get_top_songs`. -/
structure TopEntry where
  song : Song
  listenTime : Int
  playCount : Int
  priorityScore : Int
  deriving Repr, DecidableEq

/-- One entry of the `get_top_songs` result. -/
def toEntry (it : FavoriteItem) : TopEntry :=
  ⟨it.song, it.listenTime, it.playCount, -it.priority⟩

/-- The extraction loop of `get_top_songs`: pop `min(count, len)` times
from the copied heap (`if heap_copy:` guards the empty case). -/
def popLoop : List FavoriteItem → Nat → List TopEntry
  | _, 0 => []
  | [], _ + 1 => []
  | x :: t, n + 1 => toEntry x :: popLoop t n

/-- `FavoritesQueue.get_top_songs`: early-return on an empty heap, then
pop from a copy of the heap; the state is returned unchanged (the live
heap is never touched). -/
def get_top_songs (st : State) (count : Int) : List TopEntry × State :=
  if st.heap = [] then ([], st)
  else
    let heapCopy := st.heap
    (popLoop heapCopy (min count (heapCopy.length : Int)).toNat, st)

/-- The observable heap invariant of the sorted-list model. -/
def heapSorted (l : List FavoriteItem) : Prop :=
  l.Pairwise (fun a b => ¬ itemLt b a)

instance (l : List FavoriteItem) : Decidable (heapSorted l) :=
  inferInstanceAs (Decidable (l.Pairwise _))

end FavoritesQueue

namespace FavoritesQueue

section C2

/-- Track A: 10 seconds of listen time. -/
def favSongA : Song := ⟨"fa", "FA", "art", 100, 0, 0, 10, 0⟩

/-- Track B: 5 seconds of listen time (the true minimum at capacity). -/
def favSongB : Song := ⟨"fb", "FB", "art", 100, 0, 0, 5, 0⟩

/-- Track C: 7 seconds — above the minimum, below the maximum. -/
def favSongC : Song := ⟨"fc", "FC", "art", 100, 0, 0, 7, 0⟩

/-- Track D: 20 seconds — above the maximum. -/
def favSongD : Song := ⟨"fd", "FD", "art", 100, 0, 0, 20, 0⟩

/-- The capacity-2 queue state after adding A(10) and B(5). -/
def favSt2 : State :=
  ⟨[⟨favSongA, -10, 10, 0⟩, ⟨favSongB, -5, 5, 0⟩], [("fa", 0), ("fb", 1)], 2, 15, 2⟩

/-- C2 (code evaluation at the failing input): with capacity 2 and heap
{A:10, B:5}, the not-yet-tracked track C with priority 7 qualifies
against the current minimum (7 > 5), yet `add_song` returns `False` and
leaves the heap unchanged — the source compares against `-heap[0].priority`,
which is the *maximum* (10).  A track D with priority 20 is accepted but
evicts A (the maximum-priority entry), keeping B (the minimum): the heap
ends as {D:20, B:5} instead of {D:20, A:10}. -/
theorem add_song_no_min_eviction :
    ((add_song ⟨[], [], 2, 0, 0⟩ favSongA none).bind
        (fun p => add_song p.2 favSongB none)) = some (true, favSt2) ∧
    favSt2.heap.map (fun it => it.listenTime) = [10, 5] ∧
    (7 : Int) > 5 ∧
    add_song favSt2 favSongC none = some (false, favSt2) ∧
    add_song favSt2 favSongD none =
      some (true, ⟨[⟨favSongD, -20, 20, 0⟩, ⟨favSongB, -5, 5, 0⟩],
        [("fb", 1), ("fd", 1)], 2, 35, 3⟩) := by
  decide

end C2

end FavoritesQueue

namespace FavoritesQueue

theorem popLoop_eq_take_map : ∀ (l : List FavoriteItem) (n : Nat),
    popLoop l n = (l.take n).map toEntry := by
  intro l
  induction l with
  | nil => intro n; cases n <;> rfl
  | cons x t ih =>
    intro n
    cases n with
    | zero => rfl
    | succ m =>
      rw [popLoop]
      rw [List.take_succ_cons, List.map_cons]
      rw [ih m]

/-- Descending (listen time, play count) order between result entries. -/
def entryDesc (e1 e2 : TopEntry) : Prop :=
  e2.listenTime < e1.listenTime ∨
    (e2.listenTime = e1.listenTime ∧ e2.playCount ≤ e1.playCount)

theorem pairwise_entry_of_sorted : ∀ (l : List FavoriteItem),
    heapSorted l → (∀ it ∈ l, it.listenTime = -it.priority) →
    (l.map toEntry).Pairwise entryDesc := by
  intro l
  induction l with
  | nil => intro _ _; exact List.Pairwise.nil
  | cons x t ih =>
    intro hs hlink
    rcases List.pairwise_cons.mp hs with ⟨hx, ht⟩
    rw [List.map_cons]
    apply List.Pairwise.cons
    · intro e he
      rcases List.mem_map.mp he with ⟨b, hb, rfl⟩
      have hnb := hx b hb
      unfold itemLt at hnb
      push_neg at hnb
      have hlx := hlink x (List.mem_cons_self _ _)
      have hlb := hlink b (List.mem_cons_of_mem _ hb)
      unfold entryDesc toEntry
      simp only []
      rw [hlx, hlb]
      rcases hnb with ⟨h1, h2⟩
      by_cases he2 : b.priority = x.priority
      · right
        exact ⟨by omega, by have := h2 he2; omega⟩
      · left
        omega
    · exact ih ht (fun it hit => hlink it (List.mem_cons_of_mem _ hit))

/-- C5: for every queue state satisfying the heap invariant and every
count, `get_top_songs` (i) leaves the state — live heap, its entries and
the identifier index — completely unchanged (it pops only a copy),
(ii) returns the first `min(count, size)` heap entries, so its length is
`min(count, size)` (clamped at 0), and (iii) the entries are in descending
priority order — descending (listen time, play count) whenever each
item's stored listen time matches its (negated) priority, as every item
built by `add_song`/`update_listen_time` does. -/
theorem get_top_songs_read_only :
    ∀ (st : State) (count : Int), heapSorted st.heap →
      (get_top_songs st count).2 = st ∧
      (get_top_songs st count).1 =
        (st.heap.take (min count (st.heap.length : Int)).toNat).map toEntry ∧
      (get_top_songs st count).1.length = (min count (st.heap.length : Int)).toNat ∧
      ((∀ it ∈ st.heap, it.listenTime = -it.priority) →
        (get_top_songs st count).1.Pairwise entryDesc) := by
  intro st count hs
  unfold get_top_songs
  by_cases hemp : st.heap = []
  · rw [if_pos hemp]
    refine ⟨rfl, ?_, ?_, ?_⟩
    · rw [hemp]
      simp
    · rw [hemp]
      simp only [List.length_nil]
      have : min count ((0 : Nat) : Int) ≤ 0 := by omega
      simp only [Nat.cast_zero]
      omega
    · intro _
      exact List.Pairwise.nil
  · rw [if_neg hemp]
    simp only []
    rw [popLoop_eq_take_map]
    refine ⟨trivial, rfl, ?_, ?_⟩
    · rw [List.length_map, List.length_take]
      have hle : (min count (st.heap.length : Int)).toNat ≤ st.heap.length := by omega
      omega
    · intro hlink
      exact List.Pairwise.sublist
        (List.Sublist.map toEntry (List.take_sublist _ _))
        (pairwise_entry_of_sorted st.heap hs hlink)

end FavoritesQueue

namespace FavoritesQueue

/-- Witness for `get_top_songs_read_only`: the concrete capacity-2 state
after adding A(10) and B(5), count 1 — the state is untouched and one
entry comes back. -/
theorem get_top_songs_read_only_witness :
    (get_top_songs favSt2 1).2 = favSt2 ∧ (get_top_songs favSt2 1).1.length = 1 := by
  have h := get_top_songs_read_only favSt2 1 (by decide)
  refine ⟨h.1, ?_⟩
  rw [h.2.2.1]
  decide

end FavoritesQueue

/-! ## Song lookup (`core/song_lookup.py`)

Identity map plus title/artist multimaps (Python dicts, insertion
ordered, modelled as association lists) and the `all_songs` set (hashed
by song id).  `_add_to_title_lookup`/`_add_to_artist_lookup` and
`_remove_from_title_lookup`/`_remove_from_artist_lookup` are identical up
to the key expression, so they are embedded once, parametrised by the
already-computed key. -/

namespace SongLookup

/-- `title.lower().strip()` / `artist.lower().strip()`. -/
def normKey (s : String) : String := s.toLower.trim

/-- Association-list lookup (`dict.get` / `in`). -/
def alookup {β : Type} : List (String × β) → String → Option β
  | [], _ => none
  | (k2, v) :: t, k => if k2 = k then some v else alookup t k

/-- `dict[key] = v`: replace in place, else append. -/
def aset {β : Type} : List (String × β) → String → β → List (String × β)
  | [], k, v => [(k, v)]
  | (k2, v2) :: t, k, v =>
      if k2 = k then (k, v) :: t else (k2, v2) :: aset t k v

/-- `del dict[key]`. -/
def adel {β : Type} : List (String × β) → String → List (String × β)
  | [], _ => []
  | (k2, v) :: t, k => if k2 = k then t else (k2, v) :: adel t k

/-- `list.remove(song)` with `Song.__eq__` comparing by id; no-op when
absent (callers catch the `ValueError`). -/
def eraseFirstById : List Song → String → List Song
  | [], _ => []
  | s :: t, i => if s.id = i then t else s :: eraseFirstById t i

/-- `_add_to_title_lookup` / `_add_to_artist_lookup`: create the bucket
if absent, then append. -/
def addToLookupMap (m : List (String × List Song)) (key : String) (song : Song) :
    List (String × List Song) :=
  match alookup m key with
  | none => m ++ [(key, [song])]
  | some bucket => aset m key (bucket ++ [song])

/-- `_remove_from_title_lookup` / `_remove_from_artist_lookup`: remove
the first id-match from the bucket, dropping the key when the bucket
empties; the `ValueError` branch (no match) leaves the map untouched. -/
def removeFromLookupMap (m : List (String × List Song)) (key : String) (i : String) :
    List (String × List Song) :=
  match alookup m key with
  | none => m
  | some bucket =>
    if bucket.any (fun s => s.id = i) then
      let b2 := eraseFirstById bucket i
      if b2 = [] then adel m key else aset m key b2
    else m

/-- `SongLookup.__init__`: the three dicts and the `all_songs` set (a
Python set of songs hashed/compared by id, modelled as a list without
id-duplicates). -/
structure State where
  songsById : List (String × Song)
  songsByTitle : List (String × List Song)
  songsByArtist : List (String × List Song)
  allSongs : List Song
  deriving Repr, DecidableEq

/-- The empty lookup. -/
def emptyState : State := ⟨[], [], [], []⟩

/-- `SongLookup.add_song`. -/
def add_song (st : State) (song : Song) : Bool × State :=
  if (alookup st.songsById song.id).isSome then (false, st)
  else
    (true,
      { songsById := st.songsById ++ [(song.id, song)],
        songsByTitle := addToLookupMap st.songsByTitle (normKey song.title) song,
        songsByArtist := addToLookupMap st.songsByArtist (normKey song.artist) song,
        allSongs := if st.allSongs.any (fun s => s.id = song.id) then st.allSongs
          else st.allSongs ++ [song] })

/-- `SongLookup.remove_song`. -/
def remove_song (st : State) (song : Song) : Bool × State :=
  if (alookup st.songsById song.id).isSome then
    (true,
      { songsById := adel st.songsById song.id,
        songsByTitle := removeFromLookupMap st.songsByTitle (normKey song.title) song.id,
        songsByArtist :=
          removeFromLookupMap st.songsByArtist (normKey song.artist) song.id,
        allSongs := eraseFirstById st.allSongs song.id })
  else (false, st)

/-- The operations of claim C4.  A removal names the stored record by its
id (in Python the caller passes the aliased `Song` object fetched from
the identity map). -/
inductive LookupOp where
  | addOp (song : Song) : LookupOp
  | removeOp (id : String) : LookupOp

/-- Apply one operation. -/
def applyOp (st : State) : LookupOp → State
  | LookupOp.addOp song => (add_song st song).2
  | LookupOp.removeOp i =>
    match alookup st.songsById i with
    | some s => (remove_song st s).2
    | none => st

/-- Apply a sequence of operations. -/
def applyOps (st : State) (ops : List LookupOp) : State :=
  ops.foldl applyOp st

/-- The ids stored across all buckets of a lookup map, in order. -/
def bucketIds : List (String × List Song) → List String
  | [] => []
  | (_, b) :: t => b.map Song.id ++ bucketIds t

/-- The song is in the bucket the key maps to. -/
def memBucket (m : List (String × List Song)) (k : String) (s : Song) : Prop :=
  ∃ b, alookup m k = some b ∧ s ∈ b

/-- Executable form of `memBucket`. -/
def memBucketB (m : List (String × List Song)) (k : String) (s : Song) : Bool :=
  match alookup m k with
  | some b => b.any (fun x => x = s)
  | none => false

theorem memBucketB_iff (m : List (String × List Song)) (k : String) (s : Song) :
    memBucketB m k s = true ↔ memBucket m k s := by
  unfold memBucketB memBucket
  cases h : alookup m k with
  | none =>
    simp only [Bool.false_eq_true, false_iff]
    intro hex
    rcases hex with ⟨b2, hb2, _⟩
    cases hb2
  | some b =>
    simp only [List.any_eq_true, decide_eq_true_eq]
    constructor
    · intro hex
      rcases hex with ⟨x, hx, rfl⟩
      exact ⟨b, rfl, hx⟩
    · intro hex
      rcases hex with ⟨b2, hb2, hm2⟩
      injection hb2 with hb2
      subst hb2
      exact ⟨s, hm2, rfl⟩

instance (m : List (String × List Song)) (k : String) (s : Song) :
    Decidable (memBucket m k s) :=
  decidable_of_iff (memBucketB m k s = true) (memBucketB_iff m k s)

/-- No secondary key maps to an empty bucket. -/
def noEmptyBuckets (st : State) : Prop :=
  (∀ p ∈ st.songsByTitle, p.2 ≠ []) ∧ (∀ p ∈ st.songsByArtist, p.2 ≠ [])

/-- The parts of the reachable-state invariant that claim C4 rests on:
distinct identity keys, no empty buckets, each id at most once across
each multimap, and every stored song present in its own key's bucket. -/
def wellFormed (st : State) : Prop :=
  (st.songsById.map Prod.fst).Nodup ∧
  (∀ p ∈ st.songsByTitle, p.2 ≠ []) ∧
  (∀ p ∈ st.songsByArtist, p.2 ≠ []) ∧
  (bucketIds st.songsByTitle).Nodup ∧
  (bucketIds st.songsByArtist).Nodup ∧
  (∀ p ∈ st.songsById, memBucket st.songsByTitle (normKey p.2.title) p.2) ∧
  (∀ p ∈ st.songsById, memBucket st.songsByArtist (normKey p.2.artist) p.2)

instance (st : State) : Decidable (noEmptyBuckets st) :=
  inferInstanceAs (Decidable (_ ∧ _))

instance (st : State) : Decidable (wellFormed st) :=
  inferInstanceAs (Decidable (_ ∧ _))

end SongLookup

namespace SongLookup

theorem alookup_eq_none_of_not_mem {β : Type} : ∀ (m : List (String × β)) (k : String),
    k ∉ m.map Prod.fst → alookup m k = none := by
  intro m
  induction m with
  | nil => intro k _; rfl
  | cons p t ih =>
    intro k hk
    match p with
    | (k2, v) =>
      rw [List.map_cons, List.mem_cons] at hk
      push_neg at hk
      rw [alookup, if_neg (fun e => hk.1 e.symm)]
      exact ih k hk.2

theorem alookup_isSome_of_mem {β : Type} : ∀ (m : List (String × β)) (k : String),
    k ∈ m.map Prod.fst → (alookup m k).isSome := by
  intro m
  induction m with
  | nil => intro k hk; simp at hk
  | cons p t ih =>
    intro k hk
    match p with
    | (k2, v) =>
      rw [alookup]
      by_cases h : k2 = k
      · rw [if_pos h]; rfl
      · rw [if_neg h]
        apply ih
        rw [List.map_cons] at hk
        rcases List.mem_cons.mp hk with he | hm
        · exact absurd he.symm h
        · exact hm

theorem alookup_mem {β : Type} : ∀ (m : List (String × β)) (k : String) (v : β),
    alookup m k = some v → (k, v) ∈ m := by
  intro m
  induction m with
  | nil => intro k v h; cases h
  | cons p t ih =>
    intro k v h
    match p with
    | (k2, v2) =>
      rw [alookup] at h
      by_cases he : k2 = k
      · rw [if_pos he] at h
        injection h with h
        subst he
        subst h
        exact List.mem_cons_self _ _
      · rw [if_neg he] at h
        exact List.mem_cons_of_mem _ (ih k v h)

theorem adel_lookup_self {β : Type} : ∀ (m : List (String × β)) (k : String),
    (m.map Prod.fst).Nodup → alookup (adel m k) k = none := by
  intro m
  induction m with
  | nil => intro k _; rfl
  | cons p t ih =>
    intro k hnd
    match p with
    | (k2, v) =>
      rw [List.map_cons] at hnd
      rcases List.pairwise_cons.mp hnd with ⟨hh, ht⟩
      rw [adel]
      by_cases h : k2 = k
      · rw [if_pos h]
        apply alookup_eq_none_of_not_mem
        intro hm
        exact hh k hm h
      · rw [if_neg h]
        rw [alookup, if_neg h]
        exact ih k ht

theorem adel_mem {β : Type} : ∀ (m : List (String × β)) (k : String)
    (p : String × β), p ∈ adel m k → p ∈ m := by
  intro m
  induction m with
  | nil => intro k p hp; cases hp
  | cons q t ih =>
    intro k p hp
    match q with
    | (k2, v) =>
      rw [adel] at hp
      by_cases h : k2 = k
      · rw [if_pos h] at hp
        exact List.mem_cons_of_mem _ hp
      · rw [if_neg h] at hp
        rcases List.mem_cons.mp hp with rfl | hm
        · exact List.mem_cons_self _ _
        · exact List.mem_cons_of_mem _ (ih k p hm)

theorem aset_mem {β : Type} : ∀ (m : List (String × β)) (k : String) (v : β)
    (p : String × β), p ∈ aset m k v → p = (k, v) ∨ p ∈ m := by
  intro m
  induction m with
  | nil =>
    intro k v p hp
    rw [aset] at hp
    left
    simpa using hp
  | cons q t ih =>
    intro k v p hp
    match q with
    | (k2, v2) =>
      rw [aset] at hp
      by_cases h : k2 = k
      · rw [if_pos h] at hp
        rcases List.mem_cons.mp hp with rfl | hm
        · left; rfl
        · right; exact List.mem_cons_of_mem _ hm
      · rw [if_neg h] at hp
        rcases List.mem_cons.mp hp with rfl | hm
        · right; exact List.mem_cons_self _ _
        · rcases ih k v p hm with he | hm2
          · left; exact he
          · right; exact List.mem_cons_of_mem _ hm2

theorem eraseFirstById_no_id (i : String) : ∀ (b : List Song),
    (b.map Song.id).Nodup → ∀ s ∈ eraseFirstById b i, s.id ≠ i := by
  intro b
  induction b with
  | nil => intro _ s hs; cases hs
  | cons x t ih =>
    intro hnd s hs
    rw [List.map_cons] at hnd
    rcases List.pairwise_cons.mp hnd with ⟨hh, ht⟩
    rw [eraseFirstById] at hs
    by_cases h : x.id = i
    · rw [if_pos h] at hs
      intro he
      have : s.id ∈ t.map Song.id := List.mem_map_of_mem _ hs
      exact hh s.id this (by rw [he, h])
    · rw [if_neg h] at hs
      rcases List.mem_cons.mp hs with rfl | hm
      · exact h
      · exact ih ht s hm

theorem mem_bucketIds : ∀ (m : List (String × List Song)) (p : String × List Song)
    (s : Song), p ∈ m → s ∈ p.2 → s.id ∈ bucketIds m := by
  intro m
  induction m with
  | nil => intro p s hp _; cases hp
  | cons q t ih =>
    intro p s hp hs
    match q with
    | (k, b) =>
      rw [bucketIds]
      rcases List.mem_cons.mp hp with rfl | hm
      · exact List.mem_append_left _ (List.mem_map_of_mem _ hs)
      · exact List.mem_append_right _ (ih p s hm hs)

theorem removeMap_cons_ne (k k0 i : String) (b : List Song)
    (t : List (String × List Song)) (h : ¬ k = k0) :
    removeFromLookupMap ((k, b) :: t) k0 i =
      (k, b) :: removeFromLookupMap t k0 i := by
  unfold removeFromLookupMap
  rw [alookup, if_neg h]
  cases alookup t k0 with
  | none => rfl
  | some bucket =>
    simp only []
    by_cases hany : bucket.any (fun s => s.id = i)
    · rw [if_pos hany, if_pos hany]
      by_cases hb2 : eraseFirstById bucket i = []
      · rw [if_pos hb2, if_pos hb2]
        rw [adel, if_neg h]
      · rw [if_neg hb2, if_neg hb2]
        rw [aset, if_neg h]
    · rw [if_neg hany, if_neg hany]

theorem removeMap_clears_id (i : String) : ∀ (m : List (String × List Song))
    (k0 : String),
    (bucketIds m).Nodup →
    (∃ b, alookup m k0 = some b ∧ ∃ s ∈ b, s.id = i) →
    ∀ p ∈ removeFromLookupMap m k0 i, ∀ s ∈ p.2, s.id ≠ i := by
  intro m
  induction m with
  | nil =>
    intro k0 _ hex
    rcases hex with ⟨b, hb, _⟩
    cases hb
  | cons q t ih =>
    intro k0 hnd hex
    match q with
    | (k, b) =>
      rw [bucketIds] at hnd
      rcases List.nodup_append.mp hnd with ⟨hndb, hndt, hdisj⟩
      by_cases hk : k = k0
      · subst hk
        rcases hex with ⟨b2, hb2, s0, hs0, hs0i⟩
        rw [alookup, if_pos rfl] at hb2
        injection hb2 with hb2
        subst hb2
        have hib : i ∈ b.map Song.id := by
          rw [← hs0i]
          exact List.mem_map_of_mem _ hs0
        have hany : b.any (fun s => s.id = i) = true := by
          rw [List.any_eq_true]
          exact ⟨s0, hs0, by simp [hs0i]⟩
        unfold removeFromLookupMap
        rw [alookup, if_pos rfl]
        simp only [hany, if_true]
        have htail : ∀ p ∈ t, ∀ s ∈ p.2, s.id ≠ i := by
          intro p hp s hs he
          exact hdisj hib (by rw [← he]; exact mem_bucketIds t p s hp hs)
        by_cases hb2e : eraseFirstById b i = []
        · rw [if_pos hb2e]
          rw [adel, if_pos rfl]
          exact htail
        · rw [if_neg hb2e]
          rw [aset, if_pos rfl]
          intro p hp
          rcases List.mem_cons.mp hp with rfl | hm
          · exact eraseFirstById_no_id i b hndb
          · exact htail p hm
      · rw [removeMap_cons_ne k k0 i b t hk]
        rcases hex with ⟨b2, hb2, hexs⟩
        rw [alookup, if_neg hk] at hb2
        have hex2 : ∃ b3, alookup t k0 = some b3 ∧ ∃ s ∈ b3, s.id = i :=
          ⟨b2, hb2, hexs⟩
        intro p hp
        rcases List.mem_cons.mp hp with rfl | hm
        · intro s hs he
          rcases hexs with ⟨s0, hs0, hs0i⟩
          have hit : i ∈ bucketIds t := by
            rw [← hs0i]
            exact mem_bucketIds t (k0, b2) s0 (alookup_mem t k0 b2 hb2) hs0
          exact hdisj (by rw [← he]; exact List.mem_map_of_mem _ hs) hit
        · exact ih k0 hndt hex2 p hm

theorem removeMap_no_empty (i k0 : String) (m : List (String × List Song))
    (h : ∀ p ∈ m, p.2 ≠ []) :
    ∀ p ∈ removeFromLookupMap m k0 i, p.2 ≠ [] := by
  unfold removeFromLookupMap
  cases hlk : alookup m k0 with
  | none => exact h
  | some bucket =>
    simp only []
    by_cases hany : bucket.any (fun s => s.id = i)
    · rw [if_pos hany]
      by_cases hb2 : eraseFirstById bucket i = []
      · rw [if_pos hb2]
        intro p hp
        exact h p (adel_mem m k0 p hp)
      · rw [if_neg hb2]
        intro p hp
        rcases aset_mem m k0 _ p hp with rfl | hm
        · exact hb2
        · exact h p hm
    · rw [if_neg hany]
      exact h

theorem addMap_no_empty (k0 : String) (song : Song) (m : List (String × List Song))
    (h : ∀ p ∈ m, p.2 ≠ []) :
    ∀ p ∈ addToLookupMap m k0 song, p.2 ≠ [] := by
  unfold addToLookupMap
  cases hlk : alookup m k0 with
  | none =>
    intro p hp
    rcases List.mem_append.mp hp with hm | hs
    · exact h p hm
    · simp only [List.mem_singleton] at hs
      subst hs
      simp
  | some bucket =>
    intro p hp
    rcases aset_mem m k0 _ p hp with rfl | hm
    · simp
    · exact h p hm

end SongLookup

namespace SongLookup

theorem applyOp_no_empty (st : State) (op : LookupOp)
    (h : noEmptyBuckets st) : noEmptyBuckets (applyOp st op) := by
  rcases h with ⟨ht, ha⟩
  cases op with
  | addOp song =>
    show noEmptyBuckets (add_song st song).2
    unfold add_song
    by_cases hp : (alookup st.songsById song.id).isSome
    · rw [if_pos hp]
      exact ⟨ht, ha⟩
    · rw [if_neg hp]
      exact ⟨addMap_no_empty _ song st.songsByTitle ht,
        addMap_no_empty _ song st.songsByArtist ha⟩
  | removeOp i =>
    show noEmptyBuckets (match alookup st.songsById i with
      | some s => (remove_song st s).2
      | none => st)
    cases hlk : alookup st.songsById i with
    | none => exact ⟨ht, ha⟩
    | some s =>
      simp only []
      unfold remove_song
      by_cases hp : (alookup st.songsById s.id).isSome
      · rw [if_pos hp]
        exact ⟨removeMap_no_empty s.id _ st.songsByTitle ht,
          removeMap_no_empty s.id _ st.songsByArtist ha⟩
      · rw [if_neg hp]
        exact ⟨ht, ha⟩

/-- C4: (i) for every well-formed lookup state, removing a track that is
stored in the identity map deletes it from the identity map and from
both the title and artist multimaps (no bucket anywhere retains its id),
and no secondary key is left mapping to an empty bucket; (ii) after any
sequence of inserts and removes from the empty lookup, no secondary key
maps to an empty bucket. -/
theorem remove_song_clean :
    (∀ (st : State) (song : Song),
      wellFormed st → alookup st.songsById song.id = some song →
      alookup (remove_song st song).2.songsById song.id = none ∧
      (∀ p ∈ (remove_song st song).2.songsByTitle, ∀ s ∈ p.2, s.id ≠ song.id) ∧
      (∀ p ∈ (remove_song st song).2.songsByArtist, ∀ s ∈ p.2, s.id ≠ song.id) ∧
      noEmptyBuckets (remove_song st song).2) ∧
    (∀ ops : List LookupOp, noEmptyBuckets (applyOps emptyState ops)) := by
  constructor
  · intro st song hwf hsome
    rcases hwf with ⟨hndid, hte, hae, htids, haids, htmem, hamem⟩
    have hmem : (song.id, song) ∈ st.songsById := alookup_mem _ _ _ hsome
    unfold remove_song
    rw [if_pos (by rw [hsome]; rfl)]
    refine ⟨?_, ?_, ?_, ?_, ?_⟩
    · exact adel_lookup_self st.songsById song.id hndid
    · apply removeMap_clears_id song.id st.songsByTitle _ htids
      rcases htmem (song.id, song) hmem with ⟨b, hb, hsb⟩
      exact ⟨b, hb, song, hsb, rfl⟩
    · apply removeMap_clears_id song.id st.songsByArtist _ haids
      rcases hamem (song.id, song) hmem with ⟨b, hb, hsb⟩
      exact ⟨b, hb, song, hsb, rfl⟩
    · exact removeMap_no_empty song.id _ st.songsByTitle hte
    · exact removeMap_no_empty song.id _ st.songsByArtist hae
  · intro ops
    suffices h : ∀ (st : State), noEmptyBuckets st →
        noEmptyBuckets (applyOps st ops) by
      exact h emptyState ⟨fun p hp => absurd hp (List.not_mem_nil p),
        fun p hp => absurd hp (List.not_mem_nil p)⟩
    induction ops with
    | nil => intro st h; exact h
    | cons op rest ih =>
      intro st h
      exact ih (applyOp st op) (applyOp_no_empty st op h)

/-- The track used by the C4 witness. -/
def wSong : Song := ⟨"ws", "T", "A", 1, 0, 0, 0, 0⟩

/-- The one-song lookup state built by `add_song` (the title/artist keys
are kept symbolic: Lean's `String.toLower`/`trim` do not reduce in the
kernel, but no conclusion below depends on their value). -/
def wState : State :=
  ⟨[("ws", wSong)], [(normKey "T", [wSong])], [(normKey "A", [wSong])], [wSong]⟩

theorem add_wSong_eq : add_song emptyState wSong = (true, wState) := rfl

theorem wState_wellFormed : wellFormed wState := by
  refine ⟨?_, ?_, ?_, ?_, ?_, ?_, ?_⟩
  · exact List.nodup_singleton _
  · intro p hp
    rcases List.mem_singleton.mp hp with rfl
    simp
  · intro p hp
    rcases List.mem_singleton.mp hp with rfl
    simp
  · show (List.map Song.id [wSong] ++ bucketIds []).Nodup
    simp [bucketIds]
  · show (List.map Song.id [wSong] ++ bucketIds []).Nodup
    simp [bucketIds]
  · intro p hp
    rcases List.mem_singleton.mp hp with rfl
    refine ⟨[wSong], ?_, List.mem_singleton_self _⟩
    show (if normKey "T" = normKey wSong.title then some [wSong]
      else alookup [] (normKey wSong.title)) = some [wSong]
    exact if_pos rfl
  · intro p hp
    rcases List.mem_singleton.mp hp with rfl
    refine ⟨[wSong], ?_, List.mem_singleton_self _⟩
    show (if normKey "A" = normKey wSong.artist then some [wSong]
      else alookup [] (normKey wSong.artist)) = some [wSong]
    exact if_pos rfl

/-- Witness for `remove_song_clean`: a one-song lookup built by
`add_song` is well-formed, and removing the song empties the identity
map and leaves no empty bucket. -/
theorem remove_song_clean_witness :
    wellFormed wState ∧
    alookup (remove_song wState wSong).2.songsById "ws" = none ∧
    noEmptyBuckets (remove_song wState wSong).2 := by
  have h := remove_song_clean.1 wState wSong wState_wellFormed
    (show (if "ws" = wSong.id then some wSong else alookup [] wSong.id) = some wSong
      from if_pos rfl)
  exact ⟨wState_wellFormed, h.1, h.2.2.2⟩

end SongLookup
